import Mathlib

/-!
# Verification of the grid pathfinding engine

Shallow embedding of `src/priorityQueue.js`, `src/pathfinder.js` and the grid
collaborator (the `map` global: `validate`, the cell grid, start/exit cells),
together with proofs of the specification claims.

Modelling conventions:
* JS `Map` objects keyed by `[x,y].toString()` are association lists keyed by
  the coordinate pair itself: `[x,y].toString() = "x,y"` is injective on
  integer pairs, so the stringification is dropped.
* The `setInterval` callbacks are step functions on explicit state records; a
  run after `n` ticks is the `n`-fold iterate of the step from the initial
  state built by the algorithm's prologue.
* The unbounded `while` loop of `pathReconstruct` is run on explicit fuel; the
  outcome `running` means the loop has not terminated within that many
  iterations.
* JS numbers appearing here are integers (cell weights, priorities, cumulated
  costs), modelled as `Int`.
-/

namespace Pathfinding

/-- A grid coordinate `[x, y]` (a two-element JS array of integers). -/
abbrev Coord := Int × Int

/-- `map.get(k.toString())` on a JS `Map`: the stored value, if any. -/
def jget {β : Type} : List (Coord × β) → Coord → Option β
  | [], _ => none
  | (k, v) :: rest, c => if k = c then some v else jget rest c

/-- `map.has(k.toString())`. -/
def jhas {β : Type} (mp : List (Coord × β)) (c : Coord) : Bool :=
  (jget mp c).isSome

/-- `map.set(k.toString(), v)`: updates an existing entry in place, else
appends a new one. -/
def jset {β : Type} : List (Coord × β) → Coord → β → List (Coord × β)
  | [], c, v => [(c, v)]
  | (k, w) :: rest, c, v =>
    if k = c then (k, v) :: rest else (k, w) :: jset rest c v

/-- The keys of a JS `Map`, in storage order. -/
def jkeys {β : Type} (mp : List (Coord × β)) : List Coord :=
  mp.map Prod.fst

/-- `QueueElement` from `src/priorityQueue.js`. -/
structure QueueElement (α : Type) where
  element : α
  priority : Int
deriving DecidableEq, Repr

/-- The insertion scan of `PriorityQueue.enqueue`: the new item is spliced in
before the first stored item whose priority is strictly greater, and pushed to
the end when there is none. -/
def pqInsert {α : Type} : List (QueueElement α) → QueueElement α → List (QueueElement α)
  | [], item => [item]
  | qe :: rest, item =>
    if qe.priority > item.priority then item :: qe :: rest
    else qe :: pqInsert rest item

/-- `PriorityQueue.enqueue(element, priority)`. -/
def enqueue {α : Type} (q : List (QueueElement α)) (e : α) (p : Int) :
    List (QueueElement α) :=
  pqInsert q ⟨e, p⟩

/-- `PriorityQueue.dequeue()`: throws on an empty queue, else shifts off and
returns the first stored element. -/
def dequeue {α : Type} :
    List (QueueElement α) → Except String (QueueElement α × List (QueueElement α))
  | [] => .error "Error: No elements in Queue"
  | qe :: rest => .ok (qe, rest)

/-- `PriorityQueue.isEmpty()`. -/
def isEmpty {α : Type} (q : List (QueueElement α)) : Bool :=
  q.length == 0

/-- A call in a `PriorityQueue` usage sequence. -/
inductive PQOp (α : Type)
  | enq (e : α) (p : Int)
  | deq

/-- Effect of one call on the queue, paired with the dequeued element if any.
A dequeue on an empty queue throws, which leaves the queue unchanged and
produces no element. -/
def applyOp {α : Type} (q : List (QueueElement α)) :
    PQOp α → List (QueueElement α) × Option (QueueElement α)
  | .enq e p => (enqueue q e p, none)
  | .deq =>
    match dequeue q with
    | .error _ => (q, none)
    | .ok (qe, rest) => (rest, some qe)

/-- Run a call sequence from a freshly constructed (empty) queue, returning the
final queue and the list of dequeued elements in order. -/
def runOps {α : Type} (ops : List (PQOp α)) :
    List (QueueElement α) × List (QueueElement α) :=
  ops.foldl
    (fun acc op =>
      let res := applyOp acc.1 op
      (res.1, acc.2 ++ res.2.toList))
    ([], [])

/-- A grid cell `{ type, weight }` of the map collaborator. -/
structure Cell where
  type : String
  weight : Int
deriving DecidableEq, Repr

/-- The `map` global object: grid size, start/exit cells and the cell matrix
`map.grid[x][y]`. -/
structure GameMap where
  mapSize : Int
  startCell : Coord
  endCell : Coord
  grid : List (List Cell)
deriving DecidableEq, Repr

/-- `map.grid[x][y]`. The default cell stands for the JS `undefined` produced
by out-of-bounds indexing; every access in the engine is guarded by `isBound`,
so on well-formed maps the default is never read. -/
def cellAt (m : GameMap) (x y : Int) : Cell :=
  (m.grid.getD x.toNat []).getD y.toNat ⟨"", 0⟩

/-- `isBound(x, y)` from the map collaborator. -/
def isBound (m : GameMap) (x y : Int) : Bool :=
  decide (0 ≤ x) && decide (0 ≤ y) && decide (x < m.mapSize) && decide (y < m.mapSize)

/-- `map.validate(x, y)`: in bounds and not an obstacle. -/
def validate (m : GameMap) (x y : Int) : Bool :=
  isBound m x y && decide ((cellAt m x y).type ≠ "obstacle")

/-- `findCost(grid, neighbor)`: the weight of the entered cell. -/
def findCost (m : GameMap) (c : Coord) : Int :=
  (cellAt m c.1 c.2).weight

/-- `heuristic(c1, c2)`: Manhattan distance (L1 norm). -/
def heuristic (c1 c2 : Coord) : Int :=
  |c2.1 - c1.1| + |c2.2 - c1.2|

/-- `equals(c1, c2)`: componentwise equality of coordinates. -/
def coordEq (c1 c2 : Coord) : Bool :=
  decide (c1.1 = c2.1) && decide (c1.2 = c2.2)

/-- `visitCell(x, y, visited)`: passable and not yet in the visited map. -/
def visitCell (m : GameMap) (x y : Int) (visited : List (Coord × Option Coord)) : Bool :=
  validate m x y && !(jhas visited (x, y))

/-- `findNeighbors(x, y, visited)`: candidate neighbors in source order
(left, right, up, down), reversed when `(x + y) % 2 === 0`. -/
def findNeighbors (m : GameMap) (x y : Int)
    (visited : List (Coord × Option Coord)) : List Coord :=
  let ns : List Coord :=
    (if visitCell m (x - 1) y visited then [(x - 1, y)] else []) ++
    (if visitCell m (x + 1) y visited then [(x + 1, y)] else []) ++
    (if visitCell m x (y - 1) visited then [(x, y - 1)] else []) ++
    (if visitCell m x (y + 1) visited then [(x, y + 1)] else [])
  if (x + y) % 2 = 0 then ns.reverse else ns

/-- Outcome of running the unbounded `pathReconstruct` backtracking loop for a
bounded number of iterations. -/
inductive ReconOut
  | ok (path : List Coord)
  | crashed
  | running
deriving DecidableEq, Repr

/-- The `pathReconstruct` loop. The `current` argument is `none` when the JS
variable holds the start marker `[]` (stored only for the start cell); the
subsequent `visited.get` misses and the loop crashes one iteration later, so
this is folded into `crashed`. A missing predecessor entry makes `current`
undefined and the next `equals` call throws a `TypeError`: outcome `crashed`,
reached regardless of remaining fuel. `running` means the loop is still going
after `fuel` completed iterations. -/
def reconGo (visited : List (Coord × Option Coord)) (start : Coord) :
    Nat → Option Coord → List Coord → ReconOut
  | _, none, _ => .crashed
  | fuel, some c, acc =>
    if coordEq c start then .ok (acc ++ [start])
    else
      match jget visited c with
      | none => .crashed
      | some pred =>
        match fuel with
        | 0 => .running
        | fuel + 1 => reconGo visited start fuel pred (acc ++ [c])

/-- `pathReconstruct(visited, map)` run for `fuel` loop iterations. -/
def pathReconstruct (visited : List (Coord × Option Coord)) (m : GameMap)
    (fuel : Nat) : ReconOut :=
  reconGo visited m.startCell fuel (some m.endCell) []

/-- The local state of one `dijkstra`/`astar` run, plus the two flags of the
specification's state machine: `found` records that the goal was popped (the
`Found` terminal state), `done` that the interval was cleared after the
frontier emptied. -/
structure SearchState where
  frontier : List (QueueElement Coord)
  visited : List (Coord × Option Coord)
  cumulatedCost : List (Coord × Int)
  found : Bool
  done : Bool
deriving DecidableEq, Repr

/-- Body of the neighbor `for` loop in `dijkstra`/`astar`: compute the new
cumulated cost, and on admission enqueue the neighbor and update the cost and
predecessor maps. `prio` computes the enqueue priority from the new cost and
the neighbor. The `getD 0` default on the current cell's cost is never
exercised: every popped cell was given a cost when it was enqueued. -/
def admitNeighbor (m : GameMap) (prio : Int → Coord → Int) (cur : Coord)
    (st : SearchState) (nb : Coord) : SearchState :=
  let newCost := (jget st.cumulatedCost cur).getD 0 + findCost m nb
  if !(jhas st.cumulatedCost nb) || decide (newCost < (jget st.cumulatedCost nb).getD 0) then
    { st with
      frontier := enqueue st.frontier nb (prio newCost nb)
      cumulatedCost := jset st.cumulatedCost nb newCost
      visited := jset st.visited nb (some cur) }
  else st

/-- One `setInterval` tick of `dijkstra`/`astar`. -/
def searchStep (m : GameMap) (prio : Int → Coord → Int) (st : SearchState) :
    SearchState :=
  if st.done then st
  else
    match st.frontier with
    | [] => { st with done := true }
    | qe :: rest =>
      if coordEq qe.element m.endCell then
        { st with frontier := [], found := true }
      else
        (findNeighbors m qe.element.1 qe.element.2 st.visited).foldl
          (admitNeighbor m prio qe.element) { st with frontier := rest }

/-- The initialization shared by `dijkstra` and `astar`: enqueue the start with
zero priority, mark it visited with no origin, set its cumulated cost to 0. -/
def searchInit (m : GameMap) : SearchState :=
  { frontier := enqueue [] m.startCell 0
    visited := jset [] m.startCell none
    cumulatedCost := jset [] m.startCell 0
    found := false
    done := false }

/-- Dijkstra's enqueue priority: the new cumulated cost itself. -/
def dijkstraPrio : Int → Coord → Int := fun newCost _ => newCost

/-- A*'s enqueue priority: new cumulated cost plus the Manhattan heuristic
from the exit to the neighbor. -/
def astarPrio (m : GameMap) : Int → Coord → Int :=
  fun newCost nb => newCost + heuristic m.endCell nb

/-- State of `dijkstra(map)` after `n` interval ticks. -/
def dijkstraRun (m : GameMap) (n : Nat) : SearchState :=
  (searchStep m dijkstraPrio)^[n] (searchInit m)

/-- State of `astar(map)` after `n` interval ticks. -/
def astarRun (m : GameMap) (n : Nat) : SearchState :=
  (searchStep m (astarPrio m))^[n] (searchInit m)

/-- State after `n` ticks of the shared search loop with an arbitrary
priority function (`dijkstraRun` and `astarRun` are its two instances). -/
def searchRun (m : GameMap) (pr : Int → Coord → Int) (n : Nat) : SearchState :=
  (searchStep m pr)^[n] (searchInit m)

/-- The local state of one `bfs` run. `pushLog` is a specification-only history
of every coordinate ever pushed into the frontier (including the start cell);
no step reads it and it does not influence the computation. -/
structure BfsState where
  frontier : List Coord
  visited : List (Coord × Option Coord)
  found : Bool
  done : Bool
  pushLog : List Coord
deriving DecidableEq, Repr

/-- Body of the `bfs` neighbor loop: push the neighbor onto the frontier and
mark it visited with the current cell as origin. -/
def bfsAdmit (cur : Coord) (st : BfsState) (nb : Coord) : BfsState :=
  { st with
    frontier := st.frontier ++ [nb]
    visited := jset st.visited nb (some cur)
    pushLog := st.pushLog ++ [nb] }

/-- One `setInterval` tick of `bfs`. -/
def bfsStep (m : GameMap) (st : BfsState) : BfsState :=
  if st.done then st
  else
    match st.frontier with
    | [] => { st with done := true }
    | cur :: rest =>
      if coordEq cur m.endCell then
        { st with frontier := [], found := true }
      else
        (findNeighbors m cur.1 cur.2 st.visited).foldl (bfsAdmit cur)
          { st with frontier := rest }

/-- `bfs` initialization: the start cell is pushed and marked visited with no
origin. -/
def bfsInit (m : GameMap) : BfsState :=
  { frontier := [m.startCell]
    visited := jset [] m.startCell none
    found := false
    done := false
    pushLog := [m.startCell] }

/-- State of `bfs(map)` after `n` interval ticks. -/
def bfsRun (m : GameMap) (n : Nat) : BfsState :=
  (bfsStep m)^[n] (bfsInit m)

/-- The four 4-connected neighbor coordinates in the order the source examines
them: left, right, up, down. -/
def canonical4 (x y : Int) : List Coord :=
  [(x - 1, y), (x + 1, y), (x, y - 1), (x, y + 1)]

/-- 4-adjacency of grid cells. -/
def adjacent (a b : Coord) : Prop :=
  b ∈ canonical4 a.1 a.2

instance (a b : Coord) : Decidable (adjacent a b) := by
  unfold adjacent
  infer_instance

/-- A valid path through the grid: consecutive cells are 4-adjacent, every cell
is passable, and the cost is the sum of the weights of the cells entered along
the way (every cell except the first). -/
inductive ValidPath (m : GameMap) : Coord → Coord → Int → Prop
  | nil (c : Coord) (hc : validate m c.1 c.2 = true) : ValidPath m c c 0
  | cons (a b t : Coord) (w : Int) (hadj : adjacent a b)
      (hb : validate m b.1 b.2 = true) (hp : ValidPath m b t w) :
      ValidPath m a t (findCost m b + w)

/-- Decidable well-formedness of a map: the grid is a `mapSize × mapSize`
matrix. -/
def wellFormed (m : GameMap) : Bool :=
  decide (m.grid.length = m.mapSize.toNat) &&
    m.grid.all fun row => decide (row.length = m.mapSize.toNat)

/-- Decidable statement that every cell weight in the grid is at least 1. -/
def weightsGE1 (m : GameMap) : Bool :=
  m.grid.all fun row => row.all fun c => decide (1 ≤ c.weight)

/-- A plain cell of weight 1. -/
def plain : Cell := ⟨"plain", 1⟩

/-- An obstacle cell. Its weight is set to 1 so that the concrete maps below
satisfy the "all weights ≥ 1" hypotheses; obstacle weights are never read by
the engine. -/
def wall : Cell := ⟨"obstacle", 1⟩

/-- A 2×2 all-plain map, start `(0,0)`, exit `(1,1)`. -/
def mUnit2 : GameMap :=
  { mapSize := 2
    startCell := (0, 0)
    endCell := (1, 1)
    grid := [[plain, plain], [plain, plain]] }

/-- A plain (passable) cell of the given weight. -/
def cellW (w : Int) : Cell := ⟨"plain", w⟩

/-- A 4×4 weighted map with obstacles on which A* returns a strictly more
expensive path than Dijkstra. Start `(3,0)`, exit `(3,3)`. -/
def mAstar : GameMap :=
  { mapSize := 4
    startCell := (3, 0)
    endCell := (3, 3)
    grid :=
      [[cellW 9, wall, cellW 2, cellW 9],
       [wall, cellW 9, cellW 9, wall],
       [cellW 1, cellW 5, cellW 1, cellW 1],
       [cellW 1, cellW 2, wall, cellW 1]] }

/-- A 3×3 map whose exit `(2,2)` is fully enclosed by impassable cells.
Start `(0,0)`. -/
def mEnclosed : GameMap :=
  { mapSize := 3
    startCell := (0, 0)
    endCell := (2, 2)
    grid :=
      [[plain, plain, plain],
       [plain, plain, wall],
       [plain, wall, plain]] }

/-- A corrupted visited map whose predecessor chain from `(1,1)` is the cycle
`(1,1) → (2,1) → (1,1)` and never reaches any start cell. -/
def visCyc : List (Coord × Option Coord) :=
  [((1, 1), some (2, 1)), ((2, 1), some (1, 1))]

/-- A queue ordered by ascending priority. -/
def PQSorted {α : Type} (q : List (QueueElement α)) : Prop :=
  q.Pairwise fun a b => a.priority ≤ b.priority

/-- The coordinates currently stored in a priority-queue frontier. -/
def frontierElems (st : SearchState) : List Coord :=
  st.frontier.map QueueElement.element

/-- A cell that has been admitted (it has a recorded cumulated cost) and
already popped from the frontier. -/
def Settled (st : SearchState) (c : Coord) : Prop :=
  jhas st.cumulatedCost c = true ∧ c ∉ frontierElems st

/-- Structural invariant of every `dijkstra`/`astar` run, for any priority
function: the visited and cumulated-cost maps always hold exactly the same
keys, every frontier entry has a recorded cost, and no coordinate occurs twice
in the frontier. -/
structure StructInv (st : SearchState) : Prop where
  keysEq : jkeys st.visited = jkeys st.cumulatedCost
  frontierHas : ∀ qe ∈ st.frontier, jhas st.cumulatedCost qe.element = true
  frontierNodup : (frontierElems st).Nodup

/-- Soundness of the cumulated-cost map: every recorded cost is realized by an
actual valid path from the start. Holds for any priority function. -/
def CostSound (m : GameMap) (st : SearchState) : Prop :=
  ∀ c w, jget st.cumulatedCost c = some w → ValidPath m m.startCell c w

/-- The full invariant of a running (goal not yet popped) Dijkstra search. -/
structure CoreInv (m : GameMap) (st : SearchState) : Prop where
  keysEq : jkeys st.visited = jkeys st.cumulatedCost
  frontierHas : ∀ qe ∈ st.frontier, jget st.cumulatedCost qe.element = some qe.priority
  frontierNodup : (frontierElems st).Nodup
  sorted : PQSorted st.frontier
  sound : CostSound m st
  start0 : jget st.cumulatedCost m.startCell = some 0
  settledMin : ∀ c w, Settled st c → jget st.cumulatedCost c = some w →
    ∀ w2, ValidPath m m.startCell c w2 → w ≤ w2
  frontB : ∀ qe ∈ st.frontier, qe.element ≠ m.startCell →
    ∃ p wp, Settled st p ∧ adjacent p qe.element ∧
      jget st.cumulatedCost p = some wp ∧
      qe.priority = wp + findCost m qe.element ∧
      ∀ q wq, Settled st q → adjacent q qe.element →
        jget st.cumulatedCost q = some wq → wp ≤ wq
  settledLe : ∀ p wp, Settled st p → jget st.cumulatedCost p = some wp →
    ∀ qe ∈ st.frontier, wp ≤ qe.priority
  discovered : ∀ p, Settled st p → ∀ z ∈ canonical4 p.1 p.2,
    validate m z.1 z.2 = true → jhas st.cumulatedCost z = true

/-- What holds of a search once the goal has been popped (the `Found` terminal
state): the frontier was discarded and the recorded goal cost is the minimum
cost over all valid paths from start to goal. -/
structure FoundState (m : GameMap) (st : SearchState) : Prop where
  emptyFrontier : st.frontier = []
  goalMin : ∃ w, jget st.cumulatedCost m.endCell = some w ∧
    ValidPath m m.startCell m.endCell w ∧
    ∀ w2, ValidPath m m.startCell m.endCell w2 → w ≤ w2

/-- Combined invariant of every Dijkstra run state. -/
def DijkstraInv (m : GameMap) (st : SearchState) : Prop :=
  (st.found = false → CoreInv m st) ∧ (st.found = true → FoundState m st)

/-- Invariant of every `bfs` run: no coordinate is ever pushed twice. -/
structure BfsInv (st : BfsState) : Prop where
  logNodup : st.pushLog.Nodup
  frontierSub : ∀ c ∈ st.frontier, c ∈ st.pushLog
  frontierNodup : st.frontier.Nodup
  logVisited : ∀ c ∈ st.pushLog, jhas st.visited c = true

/-- The cost of a reconstructed path (listed goal first, start last): the sum
of the weights of the cells entered along the travel, i.e. of every cell
except the start. -/
def enteredCost (m : GameMap) (p : List Coord) : Int :=
  (p.dropLast.map fun c => findCost m c).sum

/-- A `PriorityQueue` call sequence interleaving a low-priority enqueue
between two dequeues. -/
def c3ops : List (PQOp String) :=
  [.enq "a" 5, .deq, .enq "b" 1, .deq]

/-- Two enqueues followed by no dequeue: used to exhibit a dequeue of the
minimal stored priority. -/
def c3ops2 : List (PQOp String) :=
  [.enq "a" 2, .enq "b" 1]

-- ## Basic lemmas about the JS `Map` embedding

theorem coordEq_eq (c1 c2 : Coord) : coordEq c1 c2 = decide (c1 = c2) := by
  rw [coordEq, ← Bool.decide_and]
  exact decide_eq_decide.mpr (Iff.symm Prod.ext_iff)

theorem jget_jset_self {β : Type} (mp : List (Coord × β)) (c : Coord) (v : β) :
    jget (jset mp c v) c = some v := by
  induction mp with
  | nil => simp [jset, jget]
  | cons kv rest ih =>
    obtain ⟨k, w⟩ := kv
    by_cases h : k = c
    · simp [jset, h, jget]
    · simp [jset, h, jget, ih]

theorem jget_jset_ne {β : Type} (mp : List (Coord × β)) (c c' : Coord) (v : β)
    (h : c ≠ c') : jget (jset mp c v) c' = jget mp c' := by
  induction mp with
  | nil => simp [jset, jget, h]
  | cons kv rest ih =>
    obtain ⟨k, w⟩ := kv
    by_cases hk : k = c
    · subst hk
      simp [jset, jget, h]
    · simp [jset, hk, jget, ih]

theorem jset_fresh {β : Type} (mp : List (Coord × β)) (c : Coord) (v : β)
    (h : jhas mp c = false) : jset mp c v = mp ++ [(c, v)] := by
  induction mp with
  | nil => simp [jset]
  | cons kv rest ih =>
    obtain ⟨k, w⟩ := kv
    by_cases hk : k = c
    · subst hk
      simp [jhas, jget] at h
    · simp [jhas, jget, hk] at h
      simp [jset, hk, ih (by simp [jhas, h])]

theorem jget_append_left {β : Type} (l1 l2 : List (Coord × β)) (c : Coord) (v : β)
    (h : jget l1 c = some v) : jget (l1 ++ l2) c = some v := by
  induction l1 with
  | nil => simp [jget] at h
  | cons kv rest ih =>
    obtain ⟨k, w⟩ := kv
    by_cases hk : k = c
    · simp [jget, hk] at h ⊢
      exact h
    · simp [jget, hk] at h ⊢
      exact ih h

theorem jget_append_right {β : Type} (l1 l2 : List (Coord × β)) (c : Coord)
    (h : jget l1 c = none) : jget (l1 ++ l2) c = jget l2 c := by
  induction l1 with
  | nil => simp
  | cons kv rest ih =>
    obtain ⟨k, w⟩ := kv
    by_cases hk : k = c
    · simp [jget, hk] at h
    · simp [jget, hk] at h ⊢
      exact ih h

theorem jget_none_of_has_false {β : Type} (mp : List (Coord × β)) (c : Coord)
    (h : jhas mp c = false) : jget mp c = none := by
  simpa [jhas, Option.isSome_iff_exists] using h

theorem jhas_true_iff {β : Type} (mp : List (Coord × β)) (c : Coord) :
    jhas mp c = true ↔ ∃ v, jget mp c = some v := by
  simp [jhas, Option.isSome_iff_exists]

theorem mem_jkeys_iff_jhas {β : Type} (mp : List (Coord × β)) (c : Coord) :
    c ∈ jkeys mp ↔ jhas mp c = true := by
  induction mp with
  | nil => simp [jkeys, jhas, jget]
  | cons kv rest ih =>
    obtain ⟨k, w⟩ := kv
    by_cases hk : k = c
    · simp [jkeys, jhas, jget, hk]
    · simp [jkeys, jhas, jget, hk, Ne.symm hk] at ih ⊢
      simpa [jhas] using ih

theorem jget_map_pairs {β : Type} (L : List Coord) (f : Coord → β) (c : Coord) :
    jget (L.map fun nb => (nb, f nb)) c = if c ∈ L then some (f c) else none := by
  induction L with
  | nil => simp [jget]
  | cons a rest ih =>
    by_cases ha : a = c
    · subst ha
      simp [jget]
    · simp [jget, ha, Ne.symm ha, ih]

theorem jkeys_append {β : Type} (l1 l2 : List (Coord × β)) :
    jkeys (l1 ++ l2) = jkeys l1 ++ jkeys l2 := by
  simp [jkeys]

theorem jkeys_map_pairs {β : Type} (L : List Coord) (f : Coord → β) :
    jkeys (L.map fun nb => (nb, f nb)) = L := by
  simp [jkeys, List.map_map]
  exact List.map_id L

-- ## Basic lemmas about the priority queue

theorem pqInsert_perm {α : Type} (q : List (QueueElement α)) (item : QueueElement α) :
    (pqInsert q item).Perm (item :: q) := by
  induction q with
  | nil => simp [pqInsert]
  | cons qe rest ih =>
    by_cases h : qe.priority > item.priority
    · simp [pqInsert, h]
    · simp only [pqInsert, if_neg h]
      exact (ih.cons qe).trans (List.Perm.swap item qe rest)

theorem mem_pqInsert {α : Type} (q : List (QueueElement α)) (item x : QueueElement α) :
    x ∈ pqInsert q item ↔ x = item ∨ x ∈ q := by
  rw [(pqInsert_perm q item).mem_iff]
  simp

theorem pqInsert_sorted {α : Type} (q : List (QueueElement α)) (item : QueueElement α)
    (h : PQSorted q) : PQSorted (pqInsert q item) := by
  induction q with
  | nil => simp [pqInsert, PQSorted]
  | cons qe rest ih =>
    rw [PQSorted, List.pairwise_cons] at h
    by_cases hp : qe.priority > item.priority
    · rw [PQSorted, pqInsert, if_pos hp, List.pairwise_cons]
      constructor
      · intro b hb
        rcases List.mem_cons.mp hb with rfl | hb
        · omega
        · have := h.1 b hb
          omega
      · rw [List.pairwise_cons]
        exact h
    · rw [PQSorted, pqInsert, if_neg hp, List.pairwise_cons]
      constructor
      · intro b hb
        rw [mem_pqInsert] at hb
        rcases hb with hb | hb
        · subst hb
          omega
        · exact h.1 b hb
      · exact ih h.2

theorem enqueue_stable {α : Type} (q : List (QueueElement α)) (e : α) (p : Int) :
    enqueue q e p =
      q.takeWhile (fun it => decide (it.priority ≤ p)) ++
        ⟨e, p⟩ :: q.dropWhile fun it => decide (it.priority ≤ p) := by
  induction q with
  | nil => simp [enqueue, pqInsert]
  | cons qe rest ih =>
    by_cases h : qe.priority > p
    · have hle : decide (qe.priority ≤ p) = false := by simpa using h
      simp [enqueue, pqInsert, h, List.takeWhile, List.dropWhile, hle]
    · have hle : decide (qe.priority ≤ p) = true := by
        simp only [decide_eq_true_eq]
        omega
      simp only [enqueue, pqInsert] at ih ⊢
      simp [if_neg h, List.takeWhile, List.dropWhile, hle, ih]

-- ## Characterization of findNeighbors (claim C5)

theorem findNeighbors_eq_filter (m : GameMap) (x y : Int)
    (vis : List (Coord × Option Coord)) :
    findNeighbors m x y vis =
      if (x + y) % 2 = 0 then
        ((canonical4 x y).filter fun c => visitCell m c.1 c.2 vis).reverse
      else
        (canonical4 x y).filter fun c => visitCell m c.1 c.2 vis := by
  have hfil : (canonical4 x y).filter (fun c => visitCell m c.1 c.2 vis) =
      (if visitCell m (x - 1) y vis then [((x - 1 : Int), y)] else []) ++
      (if visitCell m (x + 1) y vis then [((x + 1 : Int), y)] else []) ++
      (if visitCell m x (y - 1) vis then [(x, (y - 1 : Int))] else []) ++
      (if visitCell m x (y + 1) vis then [(x, (y + 1 : Int))] else []) := by
    cases h1 : visitCell m (x - 1) y vis <;>
      cases h2 : visitCell m (x + 1) y vis <;>
        cases h3 : visitCell m x (y - 1) vis <;>
          cases h4 : visitCell m x (y + 1) vis <;>
            simp [canonical4, List.filter, h1, h2, h3, h4]
  rw [findNeighbors, hfil]

-- ## Queue sortedness along arbitrary call sequences

theorem applyOp_sorted {α : Type} (q : List (QueueElement α)) (op : PQOp α)
    (h : PQSorted q) : PQSorted (applyOp q op).1 := by
  cases op with
  | enq e p => exact pqInsert_sorted q ⟨e, p⟩ h
  | deq =>
    cases q with
    | nil => exact h
    | cons qe rest =>
      exact (List.pairwise_cons.mp h).2

theorem foldl_ops_sorted {α : Type} (ops : List (PQOp α)) :
    ∀ (q outs : List (QueueElement α)), PQSorted q →
      PQSorted (ops.foldl
        (fun acc op =>
          let res := applyOp acc.1 op
          (res.1, acc.2 ++ res.2.toList)) (q, outs)).1 := by
  induction ops with
  | nil => intro q outs h; exact h
  | cons op rest ih =>
    intro q outs h
    exact ih (applyOp q op).1 _ (applyOp_sorted q op h)

theorem runOps_sorted {α : Type} (ops : List (PQOp α)) : PQSorted (runOps ops).1 :=
  foldl_ops_sorted ops [] [] List.Pairwise.nil

-- ## Claim C4: dequeue on an empty queue

/-- Claim C4. For every `PriorityQueue` in the empty state, `dequeue()` fails
with the `EmptyQueue` error (the thrown string `"Error: No elements in
Queue"`) rather than returning any element, and the queue is left unchanged
(the throw happens before any mutation, as the `applyOp` transition records).
-/
theorem claim_C4 {α : Type} (q : List (QueueElement α)) (h : isEmpty q = true) :
    dequeue q = Except.error "Error: No elements in Queue" ∧
      (∀ qe rest, dequeue q ≠ Except.ok (qe, rest)) ∧
      applyOp q PQOp.deq = (q, none) := by
  have hq : q = [] := by
    simpa [isEmpty, List.length_eq_zero] using h
  subst hq
  refine ⟨rfl, ?_, rfl⟩
  intro qe rest hcontra
  simp [dequeue] at hcontra

/-- Witness for C4 at the concrete empty queue. -/
theorem claim_C4_witness :
    isEmpty ([] : List (QueueElement Nat)) = true ∧
      dequeue ([] : List (QueueElement Nat)) =
        Except.error "Error: No elements in Queue" :=
  ⟨rfl, (claim_C4 ([] : List (QueueElement Nat)) rfl).1⟩

-- ## Claim C5: findNeighbors

/-- Claim C5. `findNeighbors(x, y, visited)` returns exactly those of the four
4-connected neighbors that are within bounds and passable (`validate`) and not
already keys of the visited map, in the canonical order
`[left, right, up, down]` when `(x + y) % 2` is odd and in the reverse of that
order when it is even. -/
theorem claim_C5 (m : GameMap) (x y : Int) (vis : List (Coord × Option Coord)) :
    findNeighbors m x y vis =
      if (x + y) % 2 = 1 then
        (canonical4 x y).filter fun c => validate m c.1 c.2 && !(jhas vis c)
      else
        ((canonical4 x y).filter fun c => validate m c.1 c.2 && !(jhas vis c)).reverse := by
  have hvc : (fun c : Coord => visitCell m c.1 c.2 vis) =
      fun c : Coord => validate m c.1 c.2 && !(jhas vis c) := by
    funext c
    rfl
  rw [findNeighbors_eq_filter, hvc]
  rcases Int.emod_two_eq_zero_or_one (x + y) with h | h
  · rw [if_pos h, if_neg (by omega)]
  · rw [if_neg (by omega), if_pos h]

-- ## Claim C9: early exit on popping the goal

/-- Claim C9. In `bfs`, `dijkstra` and `astar`, the tick that pops the goal cell
transitions directly to the `Found` terminal state: the remaining frontier is
discarded whole (left empty), and no neighbor of the goal is expanded or
enqueued — the visited and cumulated-cost maps are left untouched. -/
theorem claim_C9 :
    (∀ (m : GameMap) (st : BfsState) (cur : Coord) (rest : List Coord),
        st.done = false → st.frontier = cur :: rest → cur = m.endCell →
        bfsStep m st = { st with frontier := [], found := true }) ∧
    (∀ (m : GameMap) (st : SearchState) (qe : QueueElement Coord)
        (rest : List (QueueElement Coord)),
        st.done = false → st.frontier = qe :: rest → qe.element = m.endCell →
        searchStep m dijkstraPrio st = { st with frontier := [], found := true }) ∧
    (∀ (m : GameMap) (st : SearchState) (qe : QueueElement Coord)
        (rest : List (QueueElement Coord)),
        st.done = false → st.frontier = qe :: rest → qe.element = m.endCell →
        searchStep m (astarPrio m) st = { st with frontier := [], found := true }) := by
  refine ⟨?_, ?_, ?_⟩
  · intro m st cur rest hdone hfr hcur
    simp [bfsStep, hdone, hfr, coordEq_eq, hcur]
  · intro m st qe rest hdone hfr hcur
    simp [searchStep, hdone, hfr, coordEq_eq, hcur]
  · intro m st qe rest hdone hfr hcur
    simp [searchStep, hdone, hfr, coordEq_eq, hcur]

/-- Witness for C9: popping the goal `(1,1)` of `mUnit2` with a nonempty
remaining frontier discards that frontier in all three algorithms. -/
theorem claim_C9_witness :
    bfsStep mUnit2
        { frontier := [(1, 1), (0, 1)], visited := [], found := false,
          done := false, pushLog := [] } =
      { frontier := [], visited := [], found := true, done := false, pushLog := [] } ∧
    searchStep mUnit2 dijkstraPrio
        { frontier := [⟨(1, 1), 2⟩, ⟨(0, 1), 3⟩], visited := [],
          cumulatedCost := [], found := false, done := false } =
      { frontier := [], visited := [], cumulatedCost := [], found := true,
        done := false } ∧
    searchStep mUnit2 (astarPrio mUnit2)
        { frontier := [⟨(1, 1), 2⟩, ⟨(0, 1), 3⟩], visited := [],
          cumulatedCost := [], found := false, done := false } =
      { frontier := [], visited := [], cumulatedCost := [], found := true,
        done := false } :=
  ⟨claim_C9.1 mUnit2 _ (1, 1) [(0, 1)] rfl rfl rfl,
   claim_C9.2.1 mUnit2 _ ⟨(1, 1), 2⟩ [⟨(0, 1), 3⟩] rfl rfl rfl,
   claim_C9.2.2 mUnit2 _ ⟨(1, 1), 2⟩ [⟨(0, 1), 3⟩] rfl rfl rfl⟩

-- ## Claim C3: priority queue contract

/-- Claim C3, counterexample. The claim quantifies over every sequence of
`enqueue` and `dequeue` calls and asserts that successive dequeues return
non-decreasing priorities; interleaving a lower-priority enqueue between two
dequeues breaks this: the call sequence `c3ops` dequeues priority 5 and then
priority 1. -/
theorem claim_C3_cex :
    ((runOps c3ops).2.map fun qe => qe.priority) = [5, 1] ∧
      ¬ List.Pairwise (fun a b : Int => a ≤ b)
        ((runOps c3ops).2.map fun qe => qe.priority) := by
  constructor
  · rfl
  · decide

/-- Claim C3, amended. Every queue reachable by a call sequence is sorted by
ascending priority; each dequeue returns an element of minimal priority among
those stored; two dequeues with no call in between return non-decreasing
priorities; and `enqueue` places the new element after every stored element of
priority ≤ its own (so equal-priority elements dequeue in insertion order). -/
theorem claim_C3_amended :
    (∀ (α : Type) (ops : List (PQOp α)), PQSorted (runOps ops).1) ∧
    (∀ (α : Type) (ops : List (PQOp α)) (qe : QueueElement α)
        (rest : List (QueueElement α)),
        dequeue (runOps ops).1 = Except.ok (qe, rest) →
        ∀ x ∈ rest, qe.priority ≤ x.priority) ∧
    (∀ (α : Type) (ops : List (PQOp α)) (q1 : List (QueueElement α)) (qe1 : QueueElement α)
        (q2 : List (QueueElement α)) (qe2 : QueueElement α),
        applyOp (runOps ops).1 PQOp.deq = (q1, some qe1) →
        applyOp q1 PQOp.deq = (q2, some qe2) →
        qe1.priority ≤ qe2.priority) ∧
    (∀ (α : Type) (q : List (QueueElement α)) (e : α) (p : Int),
        enqueue q e p = q.takeWhile (fun it => decide (it.priority ≤ p)) ++
          ⟨e, p⟩ :: q.dropWhile fun it => decide (it.priority ≤ p)) := by
  refine ⟨fun α ops => runOps_sorted ops, ?_, ?_, fun α q e p => enqueue_stable q e p⟩
  · intro α ops qe rest hdq x hx
    have hs := runOps_sorted ops
    cases hq : (runOps ops).1 with
    | nil => rw [hq] at hdq; simp [dequeue] at hdq
    | cons a as =>
      rw [hq] at hdq hs
      simp [dequeue] at hdq
      obtain ⟨ha, has⟩ := hdq
      subst ha
      subst has
      exact (List.pairwise_cons.mp hs).1 x hx
  · intro α ops q1 qe1 q2 qe2 h1 h2
    have hs := runOps_sorted ops
    cases hq : (runOps ops).1 with
    | nil => rw [hq] at h1; simp [applyOp, dequeue] at h1
    | cons a as =>
      rw [hq] at h1 hs
      have h1x : (as, (some a : Option (QueueElement α))) = (q1, some qe1) := h1
      have hq1 : as = q1 := congrArg Prod.fst h1x
      have hqe1 : a = qe1 := Option.some.inj (congrArg Prod.snd h1x)
      subst hq1
      subst hqe1
      cases as with
      | nil => exact absurd h2 (by simp [applyOp, dequeue])
      | cons b bs =>
        have h2x : (bs, (some b : Option (QueueElement α))) = (q2, some qe2) := h2
        have hqe2 : b = qe2 := Option.some.inj (congrArg Prod.snd h2x)
        subst hqe2
        exact (List.pairwise_cons.mp hs).1 b (List.mem_cons_self b bs)

/-- Witness for the amended C3 at the concrete sequence `c3ops2`. -/
theorem claim_C3_witness :
    dequeue (runOps c3ops2).1 =
        Except.ok ((⟨"b", 1⟩ : QueueElement String), [⟨"a", 2⟩]) ∧
      (⟨"b", (1 : Int)⟩ : QueueElement String).priority ≤
        (⟨"a", (2 : Int)⟩ : QueueElement String).priority :=
  ⟨rfl, claim_C3_amended.2.1 String c3ops2 ⟨"b", 1⟩ [⟨"a", 2⟩] rfl ⟨"a", 2⟩
    (by simp)⟩

-- ## Claim C6: path reconstruction on corrupted visited maps

theorem cyc_run (n : Nat) : ∀ (acc : List Coord) (c : Coord),
    c = (1, 1) ∨ c = (2, 1) →
    reconGo visCyc (0, 0) n (some c) acc = ReconOut.running := by
  induction n with
  | zero =>
    intro acc c h
    rcases h with rfl | rfl <;> rfl
  | succ n ih =>
    intro acc c h
    rcases h with rfl | rfl
    · have hstep : reconGo visCyc (0, 0) (n + 1) (some (1, 1)) acc =
          reconGo visCyc (0, 0) n (some (2, 1)) (acc ++ [(1, 1)]) := rfl
      rw [hstep]
      exact ih _ _ (Or.inr rfl)
    · have hstep : reconGo visCyc (0, 0) (n + 1) (some (2, 1)) acc =
          reconGo visCyc (0, 0) n (some (1, 1)) (acc ++ [(2, 1)]) := rfl
      rw [hstep]
      exact ih _ _ (Or.inl rfl)

/-- Claim C6, counterexample. On the corrupted visited map `visCyc`, whose
predecessor chain from the goal `(1,1)` cycles and never reaches the start
`(0,0)`, `pathReconstruct` is still running after grid-width × grid-height
(20 × 20 = 400) loop iterations: it neither fails with any error nor
terminates, contradicting the claimed `NoPathRecorded` failure within that
bound. -/
theorem claim_C6_cex :
    pathReconstruct visCyc mUnit2 (20 * 20) = ReconOut.running :=
  cyc_run (20 * 20) [] (1, 1) (Or.inl rfl)

/-- Claim C6, amended. `pathReconstruct` imposes no step bound and has no
`NoPathRecorded` error: on a visited map whose predecessor chain from the goal
cycles without reaching the start, the backtracking loop never terminates —
after any number of iterations it is still running. (A missing predecessor
entry instead crashes the routine with a JS `TypeError`, see C7.) -/
theorem claim_C6_amended (n : Nat) :
    pathReconstruct visCyc mUnit2 n = ReconOut.running :=
  cyc_run n [] (1, 1) (Or.inl rfl)

-- ## Claim C7: behavior when the goal is unreachable

/-- Claim C7, code bug. On `mEnclosed` — whose goal `(2,2)` is fully enclosed
by impassable cells — all three algorithms do drain their frontier (tick 7
clears the interval with `found = false`, the `Exhausted` state), but the exit
branch then calls `pathReconstruct`, which immediately crashes: the goal has
no entry in the visited map, so `visited.get` yields `undefined` and the next
`equals` test throws a `TypeError`. The caller receives an exception, not a
structured "no path" result. -/
theorem claim_C7_bug :
    (bfsRun mEnclosed 7).done = true ∧ (bfsRun mEnclosed 7).found = false ∧
      pathReconstruct (bfsRun mEnclosed 7).visited mEnclosed 9 = ReconOut.crashed ∧
      (dijkstraRun mEnclosed 7).done = true ∧ (dijkstraRun mEnclosed 7).found = false ∧
      pathReconstruct (dijkstraRun mEnclosed 7).visited mEnclosed 9 = ReconOut.crashed ∧
      (astarRun mEnclosed 7).done = true ∧ (astarRun mEnclosed 7).found = false ∧
      pathReconstruct (astarRun mEnclosed 7).visited mEnclosed 9 = ReconOut.crashed :=
  ⟨rfl, rfl, rfl, rfl, rfl, rfl, rfl, rfl, rfl⟩

-- ## Case lemmas for the step functions

theorem searchStep_done (m : GameMap) (pr : Int → Coord → Int) (st : SearchState)
    (hdone : st.done = true) : searchStep m pr st = st := by
  simp [searchStep, hdone]

theorem searchStep_nil (m : GameMap) (pr : Int → Coord → Int) (st : SearchState)
    (hdone : st.done = false) (hfr : st.frontier = []) :
    searchStep m pr st = { st with done := true } := by
  simp [searchStep, hdone, hfr]

theorem searchStep_found (m : GameMap) (pr : Int → Coord → Int) (st : SearchState)
    (qe : QueueElement Coord) (rest : List (QueueElement Coord))
    (hdone : st.done = false) (hfr : st.frontier = qe :: rest)
    (hgoal : qe.element = m.endCell) :
    searchStep m pr st = { st with frontier := [], found := true } := by
  simp [searchStep, hdone, hfr, coordEq_eq, hgoal]

theorem searchStep_expand (m : GameMap) (pr : Int → Coord → Int) (st : SearchState)
    (qe : QueueElement Coord) (rest : List (QueueElement Coord))
    (hdone : st.done = false) (hfr : st.frontier = qe :: rest)
    (hgoal : qe.element ≠ m.endCell) :
    searchStep m pr st =
      (findNeighbors m qe.element.1 qe.element.2 st.visited).foldl
        (admitNeighbor m pr qe.element) { st with frontier := rest } := by
  simp [searchStep, hdone, hfr, coordEq_eq, hgoal]

theorem bfsStep_done (m : GameMap) (st : BfsState) (hdone : st.done = true) :
    bfsStep m st = st := by
  simp [bfsStep, hdone]

theorem bfsStep_nil (m : GameMap) (st : BfsState) (hdone : st.done = false)
    (hfr : st.frontier = []) : bfsStep m st = { st with done := true } := by
  simp [bfsStep, hdone, hfr]

theorem bfsStep_found (m : GameMap) (st : BfsState) (cur : Coord) (rest : List Coord)
    (hdone : st.done = false) (hfr : st.frontier = cur :: rest)
    (hgoal : cur = m.endCell) :
    bfsStep m st = { st with frontier := [], found := true } := by
  simp [bfsStep, hdone, hfr, coordEq_eq, hgoal]

theorem bfsStep_expand (m : GameMap) (st : BfsState) (cur : Coord) (rest : List Coord)
    (hdone : st.done = false) (hfr : st.frontier = cur :: rest)
    (hgoal : cur ≠ m.endCell) :
    bfsStep m st =
      (findNeighbors m cur.1 cur.2 st.visited).foldl (bfsAdmit cur)
        { st with frontier := rest } := by
  simp [bfsStep, hdone, hfr, coordEq_eq, hgoal]

theorem searchRun_succ (m : GameMap) (pr : Int → Coord → Int) (n : Nat) :
    searchRun m pr (n + 1) = searchStep m pr (searchRun m pr n) :=
  Function.iterate_succ_apply' (searchStep m pr) n (searchInit m)

theorem bfsRun_succ (m : GameMap) (n : Nat) :
    bfsRun m (n + 1) = bfsStep m (bfsRun m n) :=
  Function.iterate_succ_apply' (bfsStep m) n (bfsInit m)

theorem dijkstraRun_eq_searchRun (m : GameMap) (n : Nat) :
    dijkstraRun m n = searchRun m dijkstraPrio n := rfl

theorem astarRun_eq_searchRun (m : GameMap) (n : Nat) :
    astarRun m n = searchRun m (astarPrio m) n := rfl

-- ## Neighbor-list facts

theorem jhas_false_iff {β : Type} (mp : List (Coord × β)) (c : Coord) :
    jhas mp c = false ↔ c ∉ jkeys mp := by
  rw [mem_jkeys_iff_jhas]
  cases h : jhas mp c <;> simp

theorem canonical4_nodup (x y : Int) : (canonical4 x y).Nodup := by
  simp [canonical4, Prod.ext_iff]
  omega

theorem mem_findNeighbors (m : GameMap) (x y : Int)
    (vis : List (Coord × Option Coord)) (nb : Coord) :
    nb ∈ findNeighbors m x y vis ↔
      nb ∈ canonical4 x y ∧ validate m nb.1 nb.2 = true ∧ jhas vis nb = false := by
  rw [findNeighbors_eq_filter]
  split <;> simp [List.mem_filter, visitCell, and_assoc]

theorem findNeighbors_nodup (m : GameMap) (x y : Int)
    (vis : List (Coord × Option Coord)) : (findNeighbors m x y vis).Nodup := by
  rw [findNeighbors_eq_filter]
  split
  · exact List.nodup_reverse.mpr ((canonical4_nodup x y).filter _)
  · exact (canonical4_nodup x y).filter _

theorem jhas_append_single_false {β : Type} (mp : List (Coord × β)) (k k' : Coord)
    (v : β) (h1 : jhas mp k' = false) (h2 : k ≠ k') :
    jhas (mp ++ [(k, v)]) k' = false := by
  rw [jhas, jget_append_right _ _ _ (jget_none_of_has_false _ _ h1)]
  simp [jget, h2]

-- ## Net effect of the neighbor expansion loop

theorem expand_effect (m : GameMap) (pr : Int → Coord → Int) (cur : Coord) :
    ∀ (L : List Coord) (s0 : SearchState) (wc : Int),
      L.Nodup →
      (∀ nb ∈ L, jhas s0.cumulatedCost nb = false) →
      (∀ nb ∈ L, jhas s0.visited nb = false) →
      jget s0.cumulatedCost cur = some wc →
      L.foldl (admitNeighbor m pr cur) s0 =
        { s0 with
          frontier := L.foldl
            (fun q nb => enqueue q nb (pr (wc + findCost m nb) nb)) s0.frontier
          cumulatedCost := s0.cumulatedCost ++ (L.map fun nb => (nb, wc + findCost m nb))
          visited := s0.visited ++ (L.map fun nb => (nb, some cur)) } := by
  intro L
  induction L with
  | nil =>
    intro s0 wc _ _ _ _
    simp
  | cons nb L ih =>
    intro s0 wc hnd hcc hvis hcur
    have hccnb : jhas s0.cumulatedCost nb = false := hcc nb (List.mem_cons_self nb L)
    have hvisnb : jhas s0.visited nb = false := hvis nb (List.mem_cons_self nb L)
    have hndtail : L.Nodup := (List.nodup_cons.mp hnd).2
    have hnbL : nb ∉ L := (List.nodup_cons.mp hnd).1
    have hcurnb : cur ≠ nb := by
      intro h
      subst h
      rw [jget_none_of_has_false _ _ hccnb] at hcur
      exact Option.noConfusion hcur
    have hstep : admitNeighbor m pr cur s0 nb =
        { s0 with
          frontier := enqueue s0.frontier nb (pr (wc + findCost m nb) nb)
          cumulatedCost := s0.cumulatedCost ++ [(nb, wc + findCost m nb)]
          visited := s0.visited ++ [(nb, some cur)] } := by
      rw [admitNeighbor]
      simp [hccnb, hcur, jset_fresh _ _ _ hccnb, jset_fresh _ _ _ hvisnb]
    have hfresh1 : ∀ nb2 ∈ L,
        jhas (s0.cumulatedCost ++ [(nb, wc + findCost m nb)]) nb2 = false := by
      intro nb2 hnb2
      exact jhas_append_single_false _ _ _ _ (hcc nb2 (List.mem_cons_of_mem nb hnb2))
        fun h => hnbL (h ▸ hnb2)
    have hfresh2 : ∀ nb2 ∈ L, jhas (s0.visited ++ [(nb, some cur)]) nb2 = false := by
      intro nb2 hnb2
      exact jhas_append_single_false _ _ _ _ (hvis nb2 (List.mem_cons_of_mem nb hnb2))
        fun h => hnbL (h ▸ hnb2)
    have hcur2 : jget (s0.cumulatedCost ++ [(nb, wc + findCost m nb)]) cur = some wc :=
      jget_append_left _ _ _ _ hcur
    rw [List.foldl_cons, hstep, ih _ wc hndtail hfresh1 hfresh2 hcur2]
    simp

theorem foldl_enqueue_perm (f : Coord → Int) :
    ∀ (L : List Coord) (q0 : List (QueueElement Coord)),
      (L.foldl (fun q nb => enqueue q nb (f nb)) q0).Perm
        (q0 ++ L.map fun nb => ⟨nb, f nb⟩) := by
  intro L
  induction L with
  | nil => intro q0; simp
  | cons nb L ih =>
    intro q0
    rw [List.foldl_cons]
    refine (ih _).trans ?_
    have h1 : (enqueue q0 nb (f nb)).Perm (⟨nb, f nb⟩ :: q0) := pqInsert_perm q0 _
    refine (h1.append_right _).trans ?_
    simpa using List.perm_middle.symm

theorem foldl_enqueue_sorted (f : Coord → Int) :
    ∀ (L : List Coord) (q0 : List (QueueElement Coord)), PQSorted q0 →
      PQSorted (L.foldl (fun q nb => enqueue q nb (f nb)) q0) := by
  intro L
  induction L with
  | nil => intro q0 h; exact h
  | cons nb L ih => intro q0 h; exact ih _ (pqInsert_sorted q0 _ h)

-- ## The structural invariant (claim C2)

theorem structInv_init (m : GameMap) : StructInv (searchInit m) := by
  refine ⟨rfl, ?_, ?_⟩
  · intro qe hqe
    have hqe2 : qe = ⟨m.startCell, 0⟩ := by
      simpa [searchInit, enqueue, pqInsert] using hqe
    subst hqe2
    simp [searchInit, jhas, jset, jget]
  · simp [searchInit, frontierElems, enqueue, pqInsert]

theorem structInv_step (m : GameMap) (pr : Int → Coord → Int) (st : SearchState)
    (h : StructInv st) : StructInv (searchStep m pr st) := by
  by_cases hdone : st.done = true
  · rw [searchStep_done m pr st hdone]
    exact h
  · rw [Bool.not_eq_true] at hdone
    cases hfr : st.frontier with
    | nil =>
      rw [searchStep_nil m pr st hdone hfr]
      refine ⟨h.keysEq, ?_, ?_⟩
      · intro qe hqe
        exact h.frontierHas qe hqe
      · simpa [frontierElems] using h.frontierNodup
    | cons qe rest =>
      by_cases hgoal : qe.element = m.endCell
      · rw [searchStep_found m pr st qe rest hdone hfr hgoal]
        refine ⟨h.keysEq, ?_, ?_⟩
        · intro qe2 hqe2
          simp at hqe2
        · simp [frontierElems]
      · rw [searchStep_expand m pr st qe rest hdone hfr hgoal]
        have hqe_mem : qe ∈ st.frontier := by
          rw [hfr]
          exact List.mem_cons_self qe rest
        obtain ⟨wc, hwc⟩ := (jhas_true_iff _ _).mp (h.frontierHas qe hqe_mem)
        have hrest_nodup : ((rest.map QueueElement.element).Nodup) ∧
            qe.element ∉ rest.map QueueElement.element := by
          have := h.frontierNodup
          rw [frontierElems, hfr] at this
          simp only [List.map_cons, List.nodup_cons] at this
          exact ⟨this.2, this.1⟩
        set L := findNeighbors m qe.element.1 qe.element.2 st.visited with hL
        have hLvis : ∀ nb ∈ L, jhas st.visited nb = false := by
          intro nb hnb
          exact ((mem_findNeighbors m _ _ _ nb).mp hnb).2.2
        have hLcc : ∀ nb ∈ L, jhas st.cumulatedCost nb = false := by
          intro nb hnb
          rw [jhas_false_iff, ← h.keysEq, ← jhas_false_iff]
          exact hLvis nb hnb
        have hLnd : L.Nodup := findNeighbors_nodup m _ _ _
        rw [expand_effect m pr qe.element L { st with frontier := rest } wc hLnd hLcc
          hLvis hwc]
        constructor
        · show jkeys (st.visited ++ _) = jkeys (st.cumulatedCost ++ _)
          rw [jkeys_append, jkeys_append, jkeys_map_pairs, jkeys_map_pairs, h.keysEq]
        · intro qe2 hqe2
          show jhas (st.cumulatedCost ++ _) qe2.element = true
          have hmem := (foldl_enqueue_perm _ L rest).mem_iff.mp hqe2
          rw [List.mem_append] at hmem
          rcases hmem with hmem | hmem
          · have hold := h.frontierHas qe2 (by rw [hfr]; exact List.mem_cons_of_mem qe hmem)
            obtain ⟨w2, hw2⟩ := (jhas_true_iff _ _).mp hold
            rw [jhas_true_iff]
            exact ⟨w2, jget_append_left _ _ _ _ hw2⟩
          · obtain ⟨nb, hnb, hqe2eq⟩ := List.mem_map.mp hmem
            subst hqe2eq
            rw [jhas_true_iff]
            refine ⟨wc + findCost m nb, ?_⟩
            rw [jget_append_right _ _ _ (jget_none_of_has_false _ _ (hLcc nb hnb)),
              jget_map_pairs, if_pos hnb]
        · show (List.map QueueElement.element _).Nodup
          have hperm := (foldl_enqueue_perm
            (fun nb => pr (wc + findCost m nb) nb) L rest).map QueueElement.element
          rw [List.Perm.nodup_iff hperm]
          rw [List.map_append, List.map_map]
          have hmapL : (List.map (QueueElement.element ∘ fun nb =>
              (⟨nb, pr (wc + findCost m nb) nb⟩ : QueueElement Coord)) L) = L := by
            show List.map id L = L
            exact List.map_id L
          rw [hmapL]
          refine List.Nodup.append hrest_nodup.1 hLnd ?_
          intro c hc1 hc2
          obtain ⟨qe2, hqe2, hqe2eq⟩ := List.mem_map.mp hc1
          have hold := h.frontierHas qe2 (by rw [hfr]; exact List.mem_cons_of_mem qe hqe2)
          rw [hqe2eq] at hold
          rw [hLcc c hc2] at hold
          exact Bool.noConfusion hold

theorem structInv_run (m : GameMap) (pr : Int → Coord → Int) (n : Nat) :
    StructInv (searchRun m pr n) := by
  induction n with
  | zero => exact structInv_init m
  | succ n ih =>
    rw [searchRun_succ]
    exact structInv_step m pr _ ih

/-- Claim C2, counterexample, proving the negation of the claim. In no run of `dijkstra` or
`astar`, at no step, is any expansion candidate (member of the
`findNeighbors` list of the popped cell) already present in the visited map or
in the cumulated-cost map: `findNeighbors` filters the visited map, and the
visited and cost maps always hold exactly the same keys, so the
strictly-lower-cost re-admission branch can never fire and no coordinate is
ever re-enqueued. -/
theorem claim_C2_cex :
    ¬ ∃ (m : GameMap) (n : Nat) (st : SearchState) (qe : QueueElement Coord)
        (rest : List (QueueElement Coord)) (nb : Coord),
        (st = dijkstraRun m n ∨ st = astarRun m n) ∧ st.done = false ∧
        st.frontier = qe :: rest ∧
        nb ∈ findNeighbors m qe.element.1 qe.element.2 st.visited ∧
        (jhas st.visited nb = true ∨ jhas st.cumulatedCost nb = true) := by
  rintro ⟨m, n, st, qe, rest, nb, hrun, -, -, hnb, hmem⟩
  have hsi : StructInv st := by
    rcases hrun with rfl | rfl
    · rw [dijkstraRun_eq_searchRun]
      exact structInv_run m dijkstraPrio n
    · rw [astarRun_eq_searchRun]
      exact structInv_run m (astarPrio m) n
  have hvis : jhas st.visited nb = false := ((mem_findNeighbors m _ _ _ nb).mp hnb).2.2
  have hcc : jhas st.cumulatedCost nb = false := by
    rw [jhas_false_iff, ← hsi.keysEq, ← jhas_false_iff]
    exact hvis
  rcases hmem with hmem | hmem
  · rw [hvis] at hmem
    exact Bool.noConfusion hmem
  · rw [hcc] at hmem
    exact Bool.noConfusion hmem

/-- Claim C2, amended. The opposite invariant holds: in every reachable state of
every `dijkstra` or `astar` run, no coordinate occurs twice in the priority
queue, and every expansion candidate of the cell about to be popped is absent
from both the visited map and the cumulated-cost map — each coordinate is
admitted (enqueued, costed, marked visited) at most once, and the
strictly-lower-cost update branch of the admission test is dead code. -/
theorem claim_C2_amended (m : GameMap) (n : Nat) (st : SearchState)
    (hrun : st = dijkstraRun m n ∨ st = astarRun m n) :
    (frontierElems st).Nodup ∧
      ∀ qe rest, st.frontier = qe :: rest →
        ∀ nb ∈ findNeighbors m qe.element.1 qe.element.2 st.visited,
          jhas st.visited nb = false ∧ jhas st.cumulatedCost nb = false := by
  have hsi : StructInv st := by
    rcases hrun with rfl | rfl
    · rw [dijkstraRun_eq_searchRun]
      exact structInv_run m dijkstraPrio n
    · rw [astarRun_eq_searchRun]
      exact structInv_run m (astarPrio m) n
  refine ⟨hsi.frontierNodup, ?_⟩
  intro qe rest hfr nb hnb
  have hvis : jhas st.visited nb = false := ((mem_findNeighbors m _ _ _ nb).mp hnb).2.2
  refine ⟨hvis, ?_⟩
  rw [jhas_false_iff, ← hsi.keysEq, ← jhas_false_iff]
  exact hvis

/-- Witness for the amended C2 at a concrete reachable state. -/
theorem claim_C2_witness :
    (frontierElems (dijkstraRun mUnit2 1)).Nodup :=
  (claim_C2_amended mUnit2 1 (dijkstraRun mUnit2 1) (Or.inl rfl)).1

-- ## The BFS invariant (claim C10)

theorem bfs_expand_effect (cur : Coord) :
    ∀ (L : List Coord) (s0 : BfsState),
      L.Nodup → (∀ nb ∈ L, jhas s0.visited nb = false) →
      L.foldl (bfsAdmit cur) s0 =
        { s0 with
          frontier := s0.frontier ++ L
          visited := s0.visited ++ (L.map fun nb => (nb, some cur))
          pushLog := s0.pushLog ++ L } := by
  intro L
  induction L with
  | nil =>
    intro s0 _ _
    simp
  | cons nb L ih =>
    intro s0 hnd hvis
    have hvisnb : jhas s0.visited nb = false := hvis nb (List.mem_cons_self nb L)
    have hnbL : nb ∉ L := (List.nodup_cons.mp hnd).1
    have hstep : bfsAdmit cur s0 nb =
        { s0 with
          frontier := s0.frontier ++ [nb]
          visited := s0.visited ++ [(nb, some cur)]
          pushLog := s0.pushLog ++ [nb] } := by
      rw [bfsAdmit]
      simp [jset_fresh _ _ _ hvisnb]
    have hfresh : ∀ nb2 ∈ L, jhas (s0.visited ++ [(nb, some cur)]) nb2 = false := by
      intro nb2 hnb2
      exact jhas_append_single_false _ _ _ _ (hvis nb2 (List.mem_cons_of_mem nb hnb2))
        fun h => hnbL (h ▸ hnb2)
    rw [List.foldl_cons, hstep, ih _ (List.nodup_cons.mp hnd).2 hfresh]
    simp

theorem bfsInv_init (m : GameMap) : BfsInv (bfsInit m) := by
  refine ⟨?_, ?_, ?_, ?_⟩
  · simp [bfsInit]
  · intro c hc
    simpa [bfsInit] using hc
  · simp [bfsInit]
  · intro c hc
    have hc2 : c = m.startCell := by simpa [bfsInit] using hc
    subst hc2
    simp [bfsInit, jhas, jset, jget]

theorem bfsInv_step (m : GameMap) (st : BfsState) (h : BfsInv st) :
    BfsInv (bfsStep m st) := by
  by_cases hdone : st.done = true
  · rw [bfsStep_done m st hdone]
    exact h
  · rw [Bool.not_eq_true] at hdone
    cases hfr : st.frontier with
    | nil =>
      rw [bfsStep_nil m st hdone hfr]
      exact ⟨h.logNodup, fun c hc => h.frontierSub c hc, h.frontierNodup, h.logVisited⟩
    | cons cur rest =>
      by_cases hgoal : cur = m.endCell
      · rw [bfsStep_found m st cur rest hdone hfr hgoal]
        refine ⟨h.logNodup, ?_, ?_, h.logVisited⟩
        · intro c hc
          simp at hc
        · simp
      · rw [bfsStep_expand m st cur rest hdone hfr hgoal]
        set L := findNeighbors m cur.1 cur.2 st.visited with hLdef
        have hLvis : ∀ nb ∈ L, jhas st.visited nb = false := by
          intro nb hnb
          exact ((mem_findNeighbors m _ _ _ nb).mp hnb).2.2
        have hLnd : L.Nodup := findNeighbors_nodup m _ _ _
        have hLlog : ∀ nb ∈ L, nb ∉ st.pushLog := by
          intro nb hnb hmem
          have := h.logVisited nb hmem
          rw [hLvis nb hnb] at this
          exact Bool.noConfusion this
        have hrest : rest.Nodup ∧ cur ∉ rest := by
          have := h.frontierNodup
          rw [hfr, List.nodup_cons] at this
          exact ⟨this.2, this.1⟩
        rw [bfs_expand_effect cur L { st with frontier := rest } hLnd hLvis]
        refine ⟨?_, ?_, ?_, ?_⟩
        · show (st.pushLog ++ L).Nodup
          exact List.Nodup.append h.logNodup hLnd fun c hc1 hc2 => hLlog c hc2 hc1
        · intro c hc
          show c ∈ st.pushLog ++ L
          rw [List.mem_append] at hc ⊢
          rcases hc with hc | hc
          · exact Or.inl (h.frontierSub c (by rw [hfr]; exact List.mem_cons_of_mem cur hc))
          · exact Or.inr hc
        · show (rest ++ L).Nodup
          refine List.Nodup.append hrest.1 hLnd ?_
          intro c hc1 hc2
          have hcl : c ∈ st.pushLog :=
            h.frontierSub c (by rw [hfr]; exact List.mem_cons_of_mem cur hc1)
          exact hLlog c hc2 hcl
        · intro c hc
          show jhas (st.visited ++ _) c = true
          rw [List.mem_append] at hc
          rcases hc with hc | hc
          · obtain ⟨v, hv⟩ := (jhas_true_iff _ _).mp (h.logVisited c hc)
            rw [jhas_true_iff]
            exact ⟨v, jget_append_left _ _ _ _ hv⟩
          · rw [jhas_true_iff]
            refine ⟨some cur, ?_⟩
            rw [jget_append_right _ _ _ (jget_none_of_has_false _ _ (hLvis c hc)),
              jget_map_pairs, if_pos hc]

theorem bfsInv_run (m : GameMap) (n : Nat) : BfsInv (bfsRun m n) := by
  induction n with
  | zero => exact bfsInv_init m
  | succ n ih =>
    rw [bfsRun_succ]
    exact bfsInv_step m _ ih

/-- Claim C10. In every run of `bfs`, each coordinate is pushed into the
frontier at most once over the whole run (the push history `pushLog` never
repeats a coordinate), so the frontier never holds two entries for the same
coordinate; the reason is that every pushed coordinate is in the visited map
from the moment it is pushed, and `findNeighbors` excludes coordinates already
in the visited map. -/
theorem claim_C10 (m : GameMap) (n : Nat) :
    (bfsRun m n).pushLog.Nodup ∧ (bfsRun m n).frontier.Nodup ∧
      ∀ c ∈ (bfsRun m n).pushLog, jhas (bfsRun m n).visited c = true :=
  ⟨(bfsInv_run m n).logNodup, (bfsInv_run m n).frontierNodup,
    (bfsInv_run m n).logVisited⟩

-- ## Paths and weights

theorem weight_ge1 (m : GameMap) (hwf : wellFormed m = true) (hw : weightsGE1 m = true)
    (c : Coord) (hv : validate m c.1 c.2 = true) : 1 ≤ findCost m c := by
  rw [validate, Bool.and_eq_true] at hv
  have hb := hv.1
  simp only [isBound, Bool.and_eq_true, decide_eq_true_eq] at hb
  rw [wellFormed, Bool.and_eq_true] at hwf
  have hlen : m.grid.length = m.mapSize.toNat := by
    simpa using hwf.1
  rw [List.all_eq_true] at hwf
  have hx : c.1.toNat < m.grid.length := by omega
  have hrow := List.getD_eq_get m.grid [] hx
  have hrowmem : m.grid.getD c.1.toNat [] ∈ m.grid := by
    rw [hrow]
    exact List.get_mem m.grid _ _
  have hrowlen : (m.grid.getD c.1.toNat []).length = m.mapSize.toNat := by
    have := hwf.2 _ hrowmem
    simpa using this
  have hy : c.2.toNat < (m.grid.getD c.1.toNat []).length := by omega
  have hcell := List.getD_eq_get (m.grid.getD c.1.toNat []) (⟨"", 0⟩ : Cell) hy
  have hcellmem : (m.grid.getD c.1.toNat []).getD c.2.toNat ⟨"", 0⟩ ∈
      m.grid.getD c.1.toNat [] := by
    rw [hcell]
    exact List.get_mem _ _ _
  rw [weightsGE1, List.all_eq_true] at hw
  have := hw _ hrowmem
  rw [List.all_eq_true] at this
  have hweight := this _ hcellmem
  rw [decide_eq_true_eq] at hweight
  exact hweight

theorem validPath_cost_nonneg (m : GameMap) (hwf : wellFormed m = true)
    (hw : weightsGE1 m = true) {s t : Coord} {w : Int}
    (hp : ValidPath m s t w) : 0 ≤ w := by
  induction hp with
  | nil c hc => omega
  | cons a b t w hadj hb hp ih =>
    have := weight_ge1 m hwf hw b hb
    omega

theorem validPath_snoc (m : GameMap) {s a : Coord} {w : Int}
    (hp : ValidPath m s a w) (b : Coord) (hadj : adjacent a b)
    (hb : validate m b.1 b.2 = true) : ValidPath m s b (w + findCost m b) := by
  induction hp with
  | nil c hc =>
    have h := ValidPath.cons c b b 0 hadj hb (ValidPath.nil b hb)
    have harith : findCost m b + 0 = 0 + findCost m b := by omega
    rwa [harith] at h
  | cons a2 b2 t w2 hadj2 hb2 hp2 ih =>
    have h := ValidPath.cons a2 b2 b (w2 + findCost m b) hadj2 hb2 (ih hadj)
    have harith : findCost m b2 + (w2 + findCost m b) =
        findCost m b2 + w2 + findCost m b := by omega
    rwa [harith] at h

-- ## The Dijkstra walk and popped-is-minimal lemmas

theorem mem_frontierElems_of_discovered (st : SearchState) (c : Coord)
    (hhas : jhas st.cumulatedCost c = true) (hns : ¬ Settled st c) :
    c ∈ frontierElems st := by
  by_contra hmem
  exact hns ⟨hhas, hmem⟩

theorem dij_walk (m : GameMap) (hwf : wellFormed m = true) (hw : weightsGE1 m = true)
    (st : SearchState) (hinv : CoreInv m st) :
    ∀ {a t : Coord} {wr : Int}, ValidPath m a t wr →
      ∀ wa, Settled st a → jget st.cumulatedCost a = some wa →
      ¬ Settled st t →
      ∃ z wz, z ∈ frontierElems st ∧ jget st.cumulatedCost z = some wz ∧
        wz ≤ wa + wr := by
  intro a t wr hpath
  induction hpath with
  | nil c hc =>
    intro wa hsa hwa hnt
    exact absurd hsa hnt
  | cons a b t w hadj hb hp ih =>
    intro wa hsa hwa hnt
    have hdisc : jhas st.cumulatedCost b = true :=
      hinv.discovered a hsa b hadj hb
    obtain ⟨wb, hwb⟩ := (jhas_true_iff _ _).mp hdisc
    by_cases hsb : Settled st b
    · have hpb : ValidPath m m.startCell b (wa + findCost m b) :=
        validPath_snoc m (hinv.sound a wa hwa) b hadj hb
      have hble : wb ≤ wa + findCost m b :=
        hinv.settledMin b wb hsb hwb _ hpb
      obtain ⟨z, wz, hz, hwz, hle⟩ := ih wb hsb hwb hnt
      exact ⟨z, wz, hz, hwz, by omega⟩
    · have hbfr : b ∈ frontierElems st := mem_frontierElems_of_discovered st b hdisc hsb
      have hw0 : 0 ≤ w := validPath_cost_nonneg m hwf hw hp
      have hwa0 : 0 ≤ wa := validPath_cost_nonneg m hwf hw (hinv.sound a wa hwa)
      have hwcost : 1 ≤ findCost m b := weight_ge1 m hwf hw b hb
      have hble : wb ≤ wa + findCost m b := by
        by_cases hbs : b = m.startCell
        · subst hbs
          rw [hinv.start0] at hwb
          have : wb = 0 := by
            exact (Option.some.inj hwb).symm
          omega
        · obtain ⟨qb, hqb, hqbe⟩ := List.mem_map.mp hbfr
          have hqbcost := hinv.frontierHas qb hqb
          rw [hqbe] at hqbcost
          rw [hwb] at hqbcost
          have hpri : wb = qb.priority := Option.some.inj hqbcost
          obtain ⟨p, wp, hsp, hadjp, hwp, heq, hmin⟩ :=
            hinv.frontB qb hqb (hqbe ▸ hbs)
          have hwple : wp ≤ wa := hmin a wa hsa (hqbe ▸ hadj) hwa
          rw [hqbe] at heq
          omega
      exact ⟨b, wb, hbfr, hwb, by omega⟩

theorem dij_popped_min (m : GameMap) (hwf : wellFormed m = true)
    (hw : weightsGE1 m = true) (st : SearchState) (hinv : CoreInv m st)
    (qe : QueueElement Coord) (rest : List (QueueElement Coord))
    (hfr : st.frontier = qe :: rest) :
    ∀ w2, ValidPath m m.startCell qe.element w2 → qe.priority ≤ w2 := by
  intro w2 hpath
  have hheadmin : ∀ z wz, z ∈ frontierElems st →
      jget st.cumulatedCost z = some wz → qe.priority ≤ wz := by
    intro z wz hz hwz
    obtain ⟨qz, hqz, hqze⟩ := List.mem_map.mp hz
    have hqzc := hinv.frontierHas qz hqz
    rw [hqze, hwz] at hqzc
    have hpri : wz = qz.priority := Option.some.inj hqzc
    have hsorted := hinv.sorted
    rw [PQSorted, hfr, List.pairwise_cons] at hsorted
    rw [hfr] at hqz
    rcases List.mem_cons.mp hqz with rfl | hqz
    · omega
    · have := hsorted.1 qz hqz
      omega
  by_cases hss : Settled st m.startCell
  · have hqnot : ¬ Settled st qe.element := by
      intro hs
      refine hs.2 ?_
      rw [frontierElems, hfr]
      exact List.mem_map_of_mem QueueElement.element (List.mem_cons_self qe rest)
    obtain ⟨z, wz, hz, hwz, hle⟩ :=
      dij_walk m hwf hw st hinv hpath 0 hss hinv.start0 hqnot
    have := hheadmin z wz hz hwz
    omega
  · have hz : m.startCell ∈ frontierElems st :=
      mem_frontierElems_of_discovered st m.startCell
        ((jhas_true_iff _ _).mpr ⟨0, hinv.start0⟩) hss
    have hq0 := hheadmin m.startCell 0 hz hinv.start0
    have hw2 : 0 ≤ w2 := validPath_cost_nonneg m hwf hw hpath
    omega

-- ## Preservation of the Dijkstra invariant

theorem coreInv_expanded_state (m : GameMap) (hwf : wellFormed m = true)
    (hw : weightsGE1 m = true) (st : SearchState) (hc : CoreInv m st)
    (qe : QueueElement Coord) (rest : List (QueueElement Coord))
    (hfr : st.frontier = qe :: rest) (fnd dn : Bool) :
    CoreInv m
      { frontier := (findNeighbors m qe.element.1 qe.element.2 st.visited).foldl
          (fun q nb => enqueue q nb (qe.priority + findCost m nb)) rest
        visited := st.visited ++
          ((findNeighbors m qe.element.1 qe.element.2 st.visited).map
            fun nb => (nb, some qe.element))
        cumulatedCost := st.cumulatedCost ++
          ((findNeighbors m qe.element.1 qe.element.2 st.visited).map
            fun nb => (nb, qe.priority + findCost m nb))
        found := fnd
        done := dn } := by
  have hqe_mem : qe ∈ st.frontier := by
    rw [hfr]
    exact List.mem_cons_self qe rest
  have hwX : jget st.cumulatedCost qe.element = some qe.priority :=
    hc.frontierHas qe hqe_mem
  set L := findNeighbors m qe.element.1 qe.element.2 st.visited with hLdef
  have hLfacts : ∀ nb ∈ L, nb ∈ canonical4 qe.element.1 qe.element.2 ∧
      validate m nb.1 nb.2 = true ∧ jhas st.visited nb = false :=
    fun nb hnb => (mem_findNeighbors m _ _ _ nb).mp hnb
  have hLcc : ∀ nb ∈ L, jhas st.cumulatedCost nb = false := by
    intro nb hnb
    rw [jhas_false_iff, ← hc.keysEq, ← jhas_false_iff]
    exact (hLfacts nb hnb).2.2
  have hLnd : L.Nodup := findNeighbors_nodup m _ _ _
  have hXnotinL : qe.element ∉ L := by
    intro hmem
    rw [jget_none_of_has_false _ _ (hLcc _ hmem)] at hwX
    exact Option.noConfusion hwX
  set F2 := L.foldl (fun q nb => enqueue q nb (qe.priority + findCost m nb)) rest
    with hF2def
  set cc2 := st.cumulatedCost ++ (L.map fun nb => (nb, qe.priority + findCost m nb))
    with hcc2def
  set vis2 := st.visited ++ (L.map fun nb => (nb, some qe.element)) with hvis2def
  have hnd_old : qe.element ∉ rest.map QueueElement.element ∧
      (rest.map QueueElement.element).Nodup := by
    have h := hc.frontierNodup
    rw [frontierElems, hfr, List.map_cons, List.nodup_cons] at h
    exact h
  have hrest_mem : ∀ qe2 ∈ rest, qe2 ∈ st.frontier := by
    intro qe2 h
    rw [hfr]
    exact List.mem_cons_of_mem qe h
  have hrest_has : ∀ c ∈ rest.map QueueElement.element,
      jhas st.cumulatedCost c = true := by
    intro c hcm
    obtain ⟨qe2, hqe2, rfl⟩ := List.mem_map.mp hcm
    exact (jhas_true_iff _ _).mpr ⟨qe2.priority, hc.frontierHas qe2 (hrest_mem qe2 hqe2)⟩
  have hrest_notL : ∀ c ∈ rest.map QueueElement.element, c ∉ L := by
    intro c hcm hcl
    have h := hrest_has c hcm
    rw [hLcc c hcl] at h
    exact Bool.noConfusion h
  have hpermF : F2.Perm (rest ++ L.map fun nb =>
      (⟨nb, qe.priority + findCost m nb⟩ : QueueElement Coord)) :=
    foldl_enqueue_perm _ L rest
  have hmaps : (L.map fun nb =>
      (⟨nb, qe.priority + findCost m nb⟩ : QueueElement Coord)).map
        QueueElement.element = L := by
    rw [List.map_map]
    show List.map id L = L
    exact List.map_id L
  have hmemE : ∀ c : Coord, c ∈ F2.map QueueElement.element ↔
      (c ∈ rest.map QueueElement.element ∨ c ∈ L) := by
    intro c
    rw [(hpermF.map QueueElement.element).mem_iff, List.map_append, hmaps,
      List.mem_append]
  have hmemF : ∀ qe2, qe2 ∈ F2 ↔ (qe2 ∈ rest ∨ ∃ nb ∈ L,
      qe2 = ⟨nb, qe.priority + findCost m nb⟩) := by
    intro qe2
    rw [hpermF.mem_iff, List.mem_append, List.mem_map]
    constructor
    · rintro (h | ⟨nb, hnb, rfl⟩)
      · exact Or.inl h
      · exact Or.inr ⟨nb, hnb, rfl⟩
    · rintro (h | ⟨nb, hnb, rfl⟩)
      · exact Or.inl h
      · exact Or.inr ⟨nb, hnb, rfl⟩
  have hccold_get : ∀ c w, jget st.cumulatedCost c = some w → jget cc2 c = some w :=
    fun c w h => jget_append_left _ _ _ _ h
  have hccnew_get : ∀ nb ∈ L, jget cc2 nb = some (qe.priority + findCost m nb) := by
    intro nb hnb
    rw [hcc2def, jget_append_right _ _ _ (jget_none_of_has_false _ _ (hLcc nb hnb)),
      jget_map_pairs, if_pos hnb]
  have hcc_cases : ∀ c w, jget cc2 c = some w →
      (jget st.cumulatedCost c = some w ∨
        (c ∈ L ∧ w = qe.priority + findCost m c)) := by
    intro c w hcw
    cases hold : jget st.cumulatedCost c with
    | some w0 =>
      left
      rw [hccold_get c w0 hold] at hcw
      exact hcw
    | none =>
      right
      rw [hcc2def, jget_append_right _ _ _ hold, jget_map_pairs] at hcw
      by_cases hcl : c ∈ L
      · rw [if_pos hcl] at hcw
        exact ⟨hcl, (Option.some.inj hcw).symm⟩
      · rw [if_neg hcl] at hcw
        exact Option.noConfusion hcw
  have hcc2has : ∀ c, jhas cc2 c = true ↔
      (jhas st.cumulatedCost c = true ∨ c ∈ L) := by
    intro c
    constructor
    · intro h
      obtain ⟨w, hwc⟩ := (jhas_true_iff _ _).mp h
      rcases hcc_cases c w hwc with hold | ⟨hcl, _⟩
      · exact Or.inl ((jhas_true_iff _ _).mpr ⟨w, hold⟩)
      · exact Or.inr hcl
    · intro h
      rcases h with h | h
      · obtain ⟨w, hwc⟩ := (jhas_true_iff _ _).mp h
        exact (jhas_true_iff _ _).mpr ⟨w, hccold_get c w hwc⟩
      · exact (jhas_true_iff _ _).mpr ⟨_, hccnew_get c h⟩
  set NN : SearchState := ⟨F2, vis2, cc2, fnd, dn⟩ with hNNdef
  have hSettledN : ∀ c, Settled NN c ↔ (Settled st c ∨ c = qe.element) := by
    intro c
    constructor
    · rintro ⟨hhas, hnin⟩
      have hnin2 : c ∉ F2.map QueueElement.element := hnin
      rcases (hcc2has c).mp hhas with hold | hcl
      · by_cases hcx : c = qe.element
        · exact Or.inr hcx
        · left
          refine ⟨hold, ?_⟩
          rw [frontierElems, hfr, List.map_cons]
          intro hmem
          rcases List.mem_cons.mp hmem with h | h
          · exact hcx h
          · exact hnin2 ((hmemE c).mpr (Or.inl h))
      · exact absurd ((hmemE c).mpr (Or.inr hcl)) hnin2
    · intro hca
      have helems : ∀ c2 : Coord, c2 ∈ frontierElems NN ↔
          (c2 ∈ rest.map QueueElement.element ∨ c2 ∈ L) := fun c2 => hmemE c2
      rcases hca with hcs | rfl
      · refine ⟨(hcc2has c).mpr (Or.inl hcs.1), ?_⟩
        intro hmem
        rcases (helems c).mp hmem with h | h
        · refine hcs.2 ?_
          rw [frontierElems, hfr, List.map_cons]
          exact List.mem_cons_of_mem _ h
        · have h1 := hcs.1
          rw [hLcc c h] at h1
          exact Bool.noConfusion h1
      · refine ⟨(hcc2has qe.element).mpr
          (Or.inl ((jhas_true_iff _ _).mpr ⟨qe.priority, hwX⟩)), ?_⟩
        intro hmem
        rcases (helems qe.element).mp hmem with h | h
        · exact hnd_old.1 h
        · exact hXnotinL h
  have hsettled_get : ∀ c, Settled st c → ∀ w, jget cc2 c = some w →
      jget st.cumulatedCost c = some w := by
    intro c hcs w hcw
    obtain ⟨w0, hw0⟩ := (jhas_true_iff _ _).mp hcs.1
    have := (hccold_get c w0 hw0).symm.trans hcw
    rw [hw0]
    exact this
  have hcost_ge1 : ∀ nb ∈ L, 1 ≤ findCost m nb := by
    intro nb hnb
    exact weight_ge1 m hwf hw nb (hLfacts nb hnb).2.1
  have hsorted_rest : PQSorted rest := by
    have h := hc.sorted
    rw [PQSorted, hfr, List.pairwise_cons] at h
    exact h.2
  have hhead_le : ∀ qe2 ∈ rest, qe.priority ≤ qe2.priority := by
    intro qe2 h
    have hs := hc.sorted
    rw [PQSorted, hfr, List.pairwise_cons] at hs
    exact hs.1 qe2 h
  refine ⟨?_, ?_, ?_, ?_, ?_, ?_, ?_, ?_, ?_, ?_⟩
  · show jkeys vis2 = jkeys cc2
    rw [hvis2def, hcc2def, jkeys_append, jkeys_append, jkeys_map_pairs,
      jkeys_map_pairs, hc.keysEq]
  · intro qe2 hqe2
    show jget cc2 qe2.element = some qe2.priority
    rcases (hmemF qe2).mp hqe2 with h | ⟨nb, hnb, rfl⟩
    · exact hccold_get _ _ (hc.frontierHas qe2 (hrest_mem qe2 h))
    · exact hccnew_get nb hnb
  · show (F2.map QueueElement.element).Nodup
    rw [List.Perm.nodup_iff (hpermF.map QueueElement.element), List.map_append,
      hmaps]
    exact List.Nodup.append hnd_old.2 hLnd fun c h1 h2 => hrest_notL c h1 h2
  · show PQSorted F2
    exact foldl_enqueue_sorted _ L rest hsorted_rest
  · intro c w hcw
    rcases hcc_cases c w hcw with hold | ⟨hcl, rfl⟩
    · exact hc.sound c w hold
    · exact validPath_snoc m (hc.sound _ _ hwX) c (hLfacts c hcl).1
        (hLfacts c hcl).2.1
  · show jget cc2 m.startCell = some 0
    exact hccold_get _ _ hc.start0
  · intro c w hcs hcw
    rcases (hSettledN c).mp hcs with hcsold | rfl
    · exact hc.settledMin c w hcsold (hsettled_get c hcsold w hcw)
    · have hwq : w = qe.priority := by
        have := (hccold_get _ _ hwX).symm.trans hcw
        exact (Option.some.inj this).symm
      subst hwq
      exact dij_popped_min m hwf hw st hc qe rest hfr
  · intro qe2 hqe2 hne
    rcases (hmemF qe2).mp hqe2 with h | ⟨nb, hnb, rfl⟩
    · obtain ⟨p, wp, hsp, hadjp, hwp, heq, hmin⟩ :=
        hc.frontB qe2 (hrest_mem qe2 h) hne
      refine ⟨p, wp, (hSettledN p).mpr (Or.inl hsp), hadjp,
        hccold_get _ _ hwp, heq, ?_⟩
      intro q wq hsq hadjq hwq
      rcases (hSettledN q).mp hsq with hsqold | rfl
      · exact hmin q wq hsqold hadjq (hsettled_get q hsqold wq hwq)
      · have hwqx : wq = qe.priority := by
          have := (hccold_get _ _ hwX).symm.trans hwq
          exact (Option.some.inj this).symm
        subst hwqx
        exact hc.settledLe p wp hsp hwp qe hqe_mem
    · refine ⟨qe.element, qe.priority, (hSettledN qe.element).mpr (Or.inr rfl),
        (hLfacts nb hnb).1, hccold_get _ _ hwX, rfl, ?_⟩
      intro q wq hsq hadjq hwq
      rcases (hSettledN q).mp hsq with hsqold | rfl
      · have hdisc := hc.discovered q hsqold nb hadjq (hLfacts nb hnb).2.1
        rw [hLcc nb hnb] at hdisc
        exact Bool.noConfusion hdisc
      · have hwqx : wq = qe.priority := by
          have := (hccold_get _ _ hwX).symm.trans hwq
          exact (Option.some.inj this).symm
        omega
  · intro p wp hsp hwp qe2 hqe2
    rcases (hSettledN p).mp hsp with hspold | rfl
    · have hwpold := hsettled_get p hspold wp hwp
      rcases (hmemF qe2).mp hqe2 with h | ⟨nb, hnb, rfl⟩
      · exact hc.settledLe p wp hspold hwpold qe2 (hrest_mem qe2 h)
      · have h1 : wp ≤ qe.priority := hc.settledLe p wp hspold hwpold qe hqe_mem
        have h2 := hcost_ge1 nb hnb
        show wp ≤ qe.priority + findCost m nb
        omega
    · have hwpx : wp = qe.priority := by
        have := (hccold_get _ _ hwX).symm.trans hwp
        exact (Option.some.inj this).symm
      subst hwpx
      rcases (hmemF qe2).mp hqe2 with h | ⟨nb, hnb, rfl⟩
      · exact hhead_le qe2 h
      · have h2 := hcost_ge1 nb hnb
        show qe.priority ≤ qe.priority + findCost m nb
        omega
  · intro p hsp z hz hzval
    show jhas cc2 z = true
    rcases (hSettledN p).mp hsp with hspold | rfl
    · exact (hcc2has z).mpr (Or.inl (hc.discovered p hspold z hz hzval))
    · by_cases hzvis : jhas st.visited z = true
      · refine (hcc2has z).mpr (Or.inl ?_)
        rw [jhas_true_iff] at hzvis ⊢
        obtain ⟨v, hv⟩ := hzvis
        have hzk : z ∈ jkeys st.visited := by
          rw [mem_jkeys_iff_jhas, jhas_true_iff]
          exact ⟨v, hv⟩
        rw [hc.keysEq, mem_jkeys_iff_jhas, jhas_true_iff] at hzk
        exact hzk
      · rw [Bool.not_eq_true] at hzvis
        refine (hcc2has z).mpr (Or.inr ?_)
        rw [hLdef, mem_findNeighbors]
        exact ⟨hz, hzval, hzvis⟩

theorem searchStep_expand_eq (m : GameMap) (pr : Int → Coord → Int)
    (st : SearchState) (qe : QueueElement Coord) (rest : List (QueueElement Coord))
    (hdone : st.done = false) (hfr : st.frontier = qe :: rest)
    (hgoal : qe.element ≠ m.endCell) (wX : Int)
    (hwX : jget st.cumulatedCost qe.element = some wX)
    (hkeys : jkeys st.visited = jkeys st.cumulatedCost) :
    searchStep m pr st =
      ⟨(findNeighbors m qe.element.1 qe.element.2 st.visited).foldl
          (fun q nb => enqueue q nb (pr (wX + findCost m nb) nb)) rest,
        st.visited ++ ((findNeighbors m qe.element.1 qe.element.2 st.visited).map
          fun nb => (nb, some qe.element)),
        st.cumulatedCost ++ ((findNeighbors m qe.element.1 qe.element.2 st.visited).map
          fun nb => (nb, wX + findCost m nb)),
        st.found, st.done⟩ := by
  have hLvis : ∀ nb ∈ findNeighbors m qe.element.1 qe.element.2 st.visited,
      jhas st.visited nb = false :=
    fun nb hnb => ((mem_findNeighbors m _ _ _ nb).mp hnb).2.2
  have hLcc : ∀ nb ∈ findNeighbors m qe.element.1 qe.element.2 st.visited,
      jhas st.cumulatedCost nb = false := by
    intro nb hnb
    rw [jhas_false_iff, ← hkeys, ← jhas_false_iff]
    exact hLvis nb hnb
  rw [searchStep_expand m pr st qe rest hdone hfr hgoal,
    expand_effect m pr qe.element _ { st with frontier := rest } wX
      (findNeighbors_nodup m _ _ _) hLcc hLvis hwX]

theorem foldl_admit_found (m : GameMap) (pr : Int → Coord → Int) (cur : Coord) :
    ∀ (L : List Coord) (s0 : SearchState),
      (L.foldl (admitNeighbor m pr cur) s0).found = s0.found := by
  intro L
  induction L with
  | nil => intro s0; rfl
  | cons nb L ih =>
    intro s0
    rw [List.foldl_cons]
    rw [ih (admitNeighbor m pr cur s0 nb)]
    simp only [admitNeighbor]
    split <;> rfl

theorem dijkstraInv_step (m : GameMap) (hwf : wellFormed m = true)
    (hw : weightsGE1 m = true) (st : SearchState) (hinv : DijkstraInv m st) :
    DijkstraInv m (searchStep m dijkstraPrio st) := by
  by_cases hdone : st.done = true
  · rw [searchStep_done m dijkstraPrio st hdone]
    exact hinv
  · rw [Bool.not_eq_true] at hdone
    cases hfound : st.found with
    | true =>
      have hfin := hinv.2 hfound
      rw [searchStep_nil m dijkstraPrio st hdone hfin.emptyFrontier]
      constructor
      · intro h
        have h2 : st.found = false := h
        rw [hfound] at h2
        exact Bool.noConfusion h2
      · intro _
        exact ⟨hfin.emptyFrontier, hfin.goalMin⟩
    | false =>
      have hcore := hinv.1 hfound
      cases hfr : st.frontier with
      | nil =>
        rw [searchStep_nil m dijkstraPrio st hdone hfr]
        constructor
        · intro _
          exact ⟨hcore.keysEq, hcore.frontierHas, hcore.frontierNodup, hcore.sorted,
            hcore.sound, hcore.start0, hcore.settledMin, hcore.frontB,
            hcore.settledLe, hcore.discovered⟩
        · intro h
          have h2 : st.found = true := h
          rw [hfound] at h2
          exact Bool.noConfusion h2
      | cons qe rest =>
        have hqe_mem : qe ∈ st.frontier := by
          rw [hfr]
          exact List.mem_cons_self qe rest
        have hwX : jget st.cumulatedCost qe.element = some qe.priority :=
          hcore.frontierHas qe hqe_mem
        by_cases hgoal : qe.element = m.endCell
        · rw [searchStep_found m dijkstraPrio st qe rest hdone hfr hgoal]
          constructor
          · intro h
            exact Bool.noConfusion h
          · intro _
            refine ⟨rfl, qe.priority, ?_, ?_, ?_⟩
            · show jget st.cumulatedCost m.endCell = some qe.priority
              rw [← hgoal]
              exact hwX
            · show ValidPath m m.startCell m.endCell qe.priority
              rw [← hgoal]
              exact hcore.sound _ _ hwX
            · intro w2 hp2
              rw [← hgoal] at hp2
              exact dij_popped_min m hwf hw st hcore qe rest hfr w2 hp2
        · rw [searchStep_expand_eq m dijkstraPrio st qe rest hdone hfr hgoal
            qe.priority hwX hcore.keysEq]
          constructor
          · intro _
            exact coreInv_expanded_state m hwf hw st hcore qe rest hfr st.found st.done
          · intro h
            have h2 : st.found = true := h
            rw [hfound] at h2
            exact Bool.noConfusion h2

theorem dijkstraInv_init (m : GameMap)
    (hstart : validate m m.startCell.1 m.startCell.2 = true) :
    DijkstraInv m (searchInit m) := by
  have hccstart : ∀ c w, jget (searchInit m).cumulatedCost c = some w →
      m.startCell = c ∧ w = 0 := by
    intro c w hcw
    by_cases h : m.startCell = c
    · simp [searchInit, jset, jget, h] at hcw
      exact ⟨h, hcw.symm⟩
    · simp [searchInit, jset, jget, h] at hcw
  have hnosettle : ∀ c, ¬ Settled (searchInit m) c := by
    intro c hs
    obtain ⟨w, hw⟩ := (jhas_true_iff _ _).mp hs.1
    obtain ⟨hc, _⟩ := hccstart c w hw
    refine hs.2 ?_
    rw [← hc]
    simp [searchInit, frontierElems, enqueue, pqInsert]
  constructor
  · intro _
    refine ⟨rfl, ?_, ?_, ?_, ?_, ?_, ?_, ?_, ?_, ?_⟩
    · intro qe hqe
      have hqe2 : qe = ⟨m.startCell, 0⟩ := by
        simpa [searchInit, enqueue, pqInsert] using hqe
      subst hqe2
      simp [searchInit, jset, jget]
    · simp [searchInit, frontierElems, enqueue, pqInsert]
    · simp [searchInit, enqueue, pqInsert, PQSorted]
    · intro c w hcw
      obtain ⟨hc, hw0⟩ := hccstart c w hcw
      subst hw0
      rw [← hc]
      exact ValidPath.nil m.startCell hstart
    · simp [searchInit, jset, jget]
    · intro c w hs _
      exact absurd hs (hnosettle c)
    · intro qe hqe hne
      have hqe2 : qe = ⟨m.startCell, 0⟩ := by
        simpa [searchInit, enqueue, pqInsert] using hqe
      rw [hqe2] at hne
      exact absurd rfl hne
    · intro p wp hs _
      exact absurd hs (hnosettle p)
    · intro p hs
      exact absurd hs (hnosettle p)
  · intro h
    exact Bool.noConfusion h

theorem dijkstraInv_run (m : GameMap) (hwf : wellFormed m = true)
    (hw : weightsGE1 m = true)
    (hstart : validate m m.startCell.1 m.startCell.2 = true) (n : Nat) :
    DijkstraInv m (dijkstraRun m n) := by
  induction n with
  | zero => exact dijkstraInv_init m hstart
  | succ n ih =>
    rw [dijkstraRun_eq_searchRun, searchRun_succ]
    rw [dijkstraRun_eq_searchRun] at ih
    exact dijkstraInv_step m hwf hw _ ih

-- ## Claim C1: Dijkstra computes minimal costs

/-- Claim C1. For every well-formed grid whose cell weights are all ≥ 1, with a
passable start cell and the goal reachable from the start, whenever the
`dijkstra` run terminates in the `Found` state the value recorded in the
cumulated-cost map for the goal coordinate is realized by an actual valid path
from start to goal and is ≤ the cost of every valid path from start to goal —
it equals the minimum possible sum of entered-cell weights over all paths. -/
theorem claim_C1 (m : GameMap) (hwf : wellFormed m = true)
    (hw : weightsGE1 m = true)
    (hstart : validate m m.startCell.1 m.startCell.2 = true)
    (hreach : ∃ w, ValidPath m m.startCell m.endCell w)
    (n : Nat) (hfound : (dijkstraRun m n).found = true) :
    ∃ w, jget (dijkstraRun m n).cumulatedCost m.endCell = some w ∧
      ValidPath m m.startCell m.endCell w ∧
      ∀ w2, ValidPath m m.startCell m.endCell w2 → w ≤ w2 :=
  ((dijkstraInv_run m hwf hw hstart n).2 hfound).goalMin

/-- Witness for C1 on the 2×2 all-plain map: the run is in the `Found` state
after 4 ticks and records cost 2 at the goal. -/
theorem claim_C1_witness :
    (dijkstraRun mUnit2 4).found = true ∧
      ∃ w, jget (dijkstraRun mUnit2 4).cumulatedCost mUnit2.endCell = some w ∧
        ValidPath mUnit2 mUnit2.startCell mUnit2.endCell w ∧
        ∀ w2, ValidPath mUnit2 mUnit2.startCell mUnit2.endCell w2 → w ≤ w2 :=
  ⟨rfl, claim_C1 mUnit2 rfl rfl rfl
    ⟨2, ValidPath.cons (0, 0) (1, 0) (1, 1) 1 (by decide) (by decide)
      (ValidPath.cons (1, 0) (1, 1) (1, 1) 0 (by decide) (by decide)
        (ValidPath.nil (1, 1) (by decide)))⟩
    4 rfl⟩

-- ## Cost soundness for any priority function (used for A*)

theorem costSound_step (m : GameMap) (pr : Int → Coord → Int) (st : SearchState)
    (hsi : StructInv st) (hsound : CostSound m st) :
    CostSound m (searchStep m pr st) := by
  by_cases hdone : st.done = true
  · rw [searchStep_done m pr st hdone]
    exact hsound
  · rw [Bool.not_eq_true] at hdone
    cases hfr : st.frontier with
    | nil =>
      rw [searchStep_nil m pr st hdone hfr]
      exact hsound
    | cons qe rest =>
      by_cases hgoal : qe.element = m.endCell
      · rw [searchStep_found m pr st qe rest hdone hfr hgoal]
        exact hsound
      · have hqe_mem : qe ∈ st.frontier := by
          rw [hfr]
          exact List.mem_cons_self qe rest
        obtain ⟨wX, hwX⟩ := (jhas_true_iff _ _).mp (hsi.frontierHas qe hqe_mem)
        rw [searchStep_expand_eq m pr st qe rest hdone hfr hgoal wX hwX hsi.keysEq]
        intro c w hcw
        have hcw2 : jget (st.cumulatedCost ++
            ((findNeighbors m qe.element.1 qe.element.2 st.visited).map
              fun nb => (nb, wX + findCost m nb))) c = some w := hcw
        cases hold : jget st.cumulatedCost c with
        | some w0 =>
          rw [jget_append_left _ _ _ _ hold] at hcw2
          have hww : w0 = w := Option.some.inj hcw2
          exact hww ▸ hsound c w0 hold
        | none =>
          rw [jget_append_right _ _ _ hold, jget_map_pairs] at hcw2
          by_cases hcl : c ∈ findNeighbors m qe.element.1 qe.element.2 st.visited
          · rw [if_pos hcl] at hcw2
            have hweq : w = wX + findCost m c := (Option.some.inj hcw2).symm
            subst hweq
            have hfacts := (mem_findNeighbors m _ _ _ c).mp hcl
            exact validPath_snoc m (hsound qe.element wX hwX) c hfacts.1 hfacts.2.1
          · rw [if_neg hcl] at hcw2
            exact Option.noConfusion hcw2

theorem costSound_init (m : GameMap)
    (hstart : validate m m.startCell.1 m.startCell.2 = true) :
    CostSound m (searchInit m) := by
  intro c w hcw
  have hcs : m.startCell = c ∧ w = 0 := by
    by_cases h : m.startCell = c
    · simp [searchInit, jset, jget, h] at hcw
      exact ⟨h, hcw.symm⟩
    · simp [searchInit, jset, jget, h] at hcw
  obtain ⟨hc, hw0⟩ := hcs
  subst hw0
  rw [← hc]
  exact ValidPath.nil m.startCell hstart

theorem costSound_run (m : GameMap) (pr : Int → Coord → Int)
    (hstart : validate m m.startCell.1 m.startCell.2 = true) (n : Nat) :
    CostSound m (searchRun m pr n) := by
  induction n with
  | zero => exact costSound_init m hstart
  | succ n ih =>
    rw [searchRun_succ]
    exact costSound_step m pr _ (structInv_run m pr n) ih

-- ## Claim C8: A* versus Dijkstra path costs

/-- Claim C8, counterexample. On the concrete 4×4 weighted map `mAstar` (start
`(3,0)`, goal `(3,3)`, all weights ≥ 1), both algorithms terminate in the
`Found` state after 7 ticks, but the path reconstructed from Dijkstra's
visited map has total entered cost 9 while the path reconstructed from A*'s
visited map has total entered cost 10: the produced paths do not have
identical total cost. (A* admits each cell only once, at first discovery, so
a cell first reached through a heuristically attractive but costlier route
keeps that cost forever.) -/
theorem claim_C8_cex :
    pathReconstruct (dijkstraRun mAstar 7).visited mAstar 16 =
        ReconOut.ok [(3, 3), (2, 3), (2, 2), (2, 1), (2, 0), (3, 0)] ∧
      pathReconstruct (astarRun mAstar 7).visited mAstar 16 =
        ReconOut.ok [(3, 3), (2, 3), (2, 2), (2, 1), (3, 1), (3, 0)] ∧
      (dijkstraRun mAstar 7).found = true ∧ (astarRun mAstar 7).found = true ∧
      enteredCost mAstar [(3, 3), (2, 3), (2, 2), (2, 1), (2, 0), (3, 0)] = 9 ∧
      enteredCost mAstar [(3, 3), (2, 3), (2, 2), (2, 1), (3, 1), (3, 0)] = 10 ∧
      (9 : Int) ≠ 10 :=
  ⟨rfl, rfl, rfl, rfl, rfl, rfl, by decide⟩

/-- Claim C8, amended. On every well-formed grid with all cell weights ≥ 1 and a
passable start, whenever both searches have recorded a cumulated cost for the
goal and Dijkstra has terminated in the `Found` state, Dijkstra's recorded
goal cost is at most A*'s: Dijkstra's equals the minimum over all valid paths
(C1) while A*'s is still realized by some actual path; the two can differ, as
the counterexample shows, so only the inequality holds in general. -/
theorem claim_C8_amended (m : GameMap) (hwf : wellFormed m = true)
    (hw : weightsGE1 m = true)
    (hstart : validate m m.startCell.1 m.startCell.2 = true)
    (n1 n2 : Nat) (hfound1 : (dijkstraRun m n1).found = true)
    (hfound2 : (astarRun m n2).found = true) (wd wa : Int)
    (hwd : jget (dijkstraRun m n1).cumulatedCost m.endCell = some wd)
    (hwa : jget (astarRun m n2).cumulatedCost m.endCell = some wa) :
    wd ≤ wa := by
  obtain ⟨w, hwcc, hwpath, hwmin⟩ :=
    ((dijkstraInv_run m hwf hw hstart n1).2 hfound1).goalMin
  have hwdw : wd = w := Option.some.inj (hwd.symm.trans hwcc)
  have hApath : ValidPath m m.startCell m.endCell wa := by
    refine costSound_run m (astarPrio m) hstart n2 m.endCell wa ?_
    rw [← astarRun_eq_searchRun]
    exact hwa
  rw [hwdw]
  exact hwmin wa hApath

/-- Witness for the amended C8 on the concrete map `mAstar`. -/
theorem claim_C8_witness :
    jget (dijkstraRun mAstar 7).cumulatedCost mAstar.endCell = some 9 ∧
      jget (astarRun mAstar 7).cumulatedCost mAstar.endCell = some 10 ∧
      (9 : Int) ≤ 10 :=
  ⟨rfl, rfl, claim_C8_amended mAstar rfl rfl rfl 7 7 rfl rfl 9 10 rfl rfl⟩

-- ## Instantiated witnesses

/-- Witness for C5 at a concrete corner cell of `mUnit2`. -/
theorem claim_C5_witness :
    findNeighbors mUnit2 0 0 (jset [] (0, 0) (none : Option Coord)) =
      if ((0 : Int) + 0) % 2 = 1 then
        (canonical4 0 0).filter fun c =>
          validate mUnit2 c.1 c.2 && !(jhas (jset [] (0, 0) (none : Option Coord)) c)
      else
        ((canonical4 0 0).filter fun c =>
          validate mUnit2 c.1 c.2 && !(jhas (jset [] (0, 0) (none : Option Coord)) c)).reverse :=
  claim_C5 mUnit2 0 0 (jset [] (0, 0) (none : Option Coord))

/-- Witness for the amended C6 at the concrete fuel bound 1000. -/
theorem claim_C6_witness :
    pathReconstruct visCyc mUnit2 1000 = ReconOut.running :=
  claim_C6_amended 1000

/-- Witness for C10 at a concrete 3-tick `bfs` run. -/
theorem claim_C10_witness :
    (bfsRun mUnit2 3).pushLog.Nodup ∧ (bfsRun mUnit2 3).frontier.Nodup ∧
      ∀ c ∈ (bfsRun mUnit2 3).pushLog, jhas (bfsRun mUnit2 3).visited c = true :=
  claim_C10 mUnit2 3

end Pathfinding
